import Mathlib

/-!
Verification of the `dataview-stream` binary codec toolkit.

This file shallowly embeds the core of the repository — the half-precision
float codec (`src/half.ts`), the sequential typed reader (`src/reader.ts`),
the growable typed writer (`src/writer.ts`) and the packet accumulator
(`src/packet.ts`) — and proves or refutes the specification claims about it.

Modelling conventions:
* a JavaScript `number` is modelled by `JSNum`: NaN, signed infinities, or a
  signed exact rational magnitude.  All genuine doubles are exact rationals,
  so this is a superset of the IEEE-754 binary64 domain; constructions that
  only exist for non-double rationals are mapped to `none`/errors and noted
  where they occur;
* a JavaScript `bigint` is `Int`; a `Uint8Array` is a `List Nat` of bytes;
  a JS string is its list of UTF-16 code units (`List Nat`);
* machine integer arithmetic is `Nat`/`Int` with explicit `% 2 ^ w`;
* methods that can throw return `Except JSError _`; because a thrown
  exception does not roll back field mutations, stateful methods return the
  post-call state alongside the `Except` result.
-/

namespace DVS

/-- The value domain of a JavaScript `number`: NaN, a signed infinity, or a
signed exact rational magnitude (`fin neg mag` is `-mag` when `neg` and `mag`
otherwise; `fin true 0` is negative zero).  Genuine doubles always have
`0 ≤ mag`. -/
inductive JSNum where
  | nan : JSNum
  | inf (neg : Bool) : JSNum
  | fin (neg : Bool) (mag : ℚ) : JSNum
deriving DecidableEq, Repr

/-- Fuel-driven helper for `tz` (structural recursion so that the kernel can
evaluate it). -/
def tzF : Nat → Nat → Nat
  | 0, _ => 0
  | fuel + 1, n => if n % 2 = 1 ∨ n = 0 then 0 else 1 + tzF fuel (n / 2)

/-- Number of times 2 divides `n` (trailing zero bits); `tz 0 = 0`. -/
def tz (n : Nat) : Nat := tzF n n

theorem tzF_spec : ∀ fuel n : Nat, n ≠ 0 → n ≤ fuel →
    (n >>> tzF fuel n) % 2 = 1 ∧ n = (n >>> tzF fuel n) * 2 ^ tzF fuel n := by
  intro fuel
  induction fuel with
  | zero => intro n hn hle; omega
  | succ fuel ih =>
    intro n hn hle
    have htz : tzF (fuel + 1) n
        = if n % 2 = 1 ∨ n = 0 then 0 else 1 + tzF fuel (n / 2) := rfl
    by_cases hodd : n % 2 = 1 ∨ n = 0
    · rw [htz, if_pos hodd]
      have h1 : n % 2 = 1 := by omega
      simp [h1]
    · rw [htz, if_neg hodd]
      have hn2 : n / 2 ≠ 0 := by omega
      have hle2 : n / 2 ≤ fuel := by omega
      obtain ⟨ih1, ih2⟩ := ih (n / 2) hn2 hle2
      have hsh : n >>> (1 + tzF fuel (n / 2)) = (n / 2) >>> tzF fuel (n / 2) := by
        rw [Nat.shiftRight_eq_div_pow, Nat.shiftRight_eq_div_pow, pow_add,
          pow_one, Nat.div_div_eq_div_mul, Nat.mul_comm]
      refine ⟨by rw [hsh]; exact ih1, ?_⟩
      rw [hsh]
      have h2 : n = n / 2 * 2 := by omega
      conv_lhs => rw [h2, ih2]
      ring

/-- The odd part of `n` times `2 ^ tz n` recovers `n`, and the odd part is
odd, for `n ≠ 0`. -/
theorem tz_spec (n : Nat) (hn : n ≠ 0) :
    (n >>> tz n) % 2 = 1 ∧ n = (n >>> tz n) * 2 ^ tz n :=
  tzF_spec n n hn (Nat.le_refl n)

/-- Fuel-driven helper for `bitLen`. -/
def bitLenF : Nat → Nat → Nat
  | 0, _ => 0
  | fuel + 1, n => if n = 0 then 0 else 1 + bitLenF fuel (n / 2)

/-- Number of binary digits of `n` (structurally recursive analogue of
`Nat.size`). -/
def bitLen (n : Nat) : Nat := bitLenF n n

theorem bitLenF_bounds : ∀ fuel n : Nat, n ≠ 0 → n ≤ fuel →
    0 < bitLenF fuel n ∧ 2 ^ (bitLenF fuel n - 1) ≤ n ∧ n < 2 ^ bitLenF fuel n := by
  intro fuel
  induction fuel with
  | zero => intro n hn hle; omega
  | succ fuel ih =>
    intro n hn hle
    have hbl : bitLenF (fuel + 1) n = if n = 0 then 0 else 1 + bitLenF fuel (n / 2) := rfl
    rw [hbl, if_neg hn]
    by_cases hn2 : n / 2 = 0
    · have h1 : n = 1 := by omega
      have h0 : bitLenF fuel (n / 2) = 0 := by
        cases fuel with
        | zero => rfl
        | succ fuel =>
          have : bitLenF (fuel + 1) (n / 2)
              = if n / 2 = 0 then 0 else 1 + bitLenF fuel (n / 2 / 2) := rfl
          rw [this, if_pos hn2]
      rw [h0, h1]
      norm_num
    · obtain ⟨ihp, ih1, ih2⟩ := ih (n / 2) hn2 (by omega)
      refine ⟨by omega, ?_, ?_⟩
      · have : 1 + bitLenF fuel (n / 2) - 1 = bitLenF fuel (n / 2) := by omega
        rw [this]
        calc 2 ^ bitLenF fuel (n / 2) = 2 * 2 ^ (bitLenF fuel (n / 2) - 1) := by
              rw [← pow_succ']
              congr 1
              omega
          _ ≤ 2 * (n / 2) := by omega
          _ ≤ n := by omega
      · calc n < 2 * (n / 2) + 2 := by omega
          _ ≤ 2 * 2 ^ bitLenF fuel (n / 2) := by omega
          _ = 2 ^ (1 + bitLenF fuel (n / 2)) := by rw [pow_add, pow_one]

theorem bitLen_bounds (n : Nat) (hn : n ≠ 0) :
    0 < bitLen n ∧ 2 ^ (bitLen n - 1) ≤ n ∧ n < 2 ^ bitLen n :=
  bitLenF_bounds n n hn (Nat.le_refl n)

/-- IEEE-754 encoder for a rational magnitude, shared by the binary16 /
binary32 / binary64 paths: `mbits` mantissa bits, exponent `bias`, largest
normal biased exponent `emax`.  Returns the bit pattern without the sign bit
iff the value is exactly representable, else `none`.  Nonpositive
magnitudes (which arise only for `JSNum` values that are not genuine
doubles, zero being handled by the callers) are rejected. -/
def prbAux (mbits bias emax : Nat) (odd : Nat) (e : ℤ) : Option Nat :=
  if 1 ≤ e + bitLen odd + bias - 1 then
    if bitLen odd ≤ mbits + 1 ∧ e + bitLen odd + bias - 1 ≤ emax then
      some ((e + bitLen odd + bias - 1).toNat * 2 ^ mbits +
        (odd <<< (mbits + 1 - bitLen odd) - 2 ^ mbits))
    else none
  else
    if 0 ≤ e + ((bias - 1 + mbits : Nat) : ℤ) ∧
        odd * 2 ^ (e + ((bias - 1 + mbits : Nat) : ℤ)).toNat < 2 ^ mbits then
      some (odd <<< (e + ((bias - 1 + mbits : Nat) : ℤ)).toNat)
    else none

def posRatBits (mbits bias emax : Nat) (q : ℚ) : Option Nat :=
  if q ≤ 0 then none
  else if q.den ≠ 2 ^ tz q.den then none
  else prbAux mbits bias emax (q.num.toNat >>> tz q.num.toNat)
    ((tz q.num.toNat : ℤ) - (tz q.den : ℤ))

/-- Embedding of the runtime pair `Object.is(Math.fround(half), half)` check
followed by `setFloat32`/`getUint32` in `half.ts`: the binary32 bit pattern
of a JS number when the number is exactly representable in binary32
(engines write the canonical quiet NaN `0x7FC00000`), `none` otherwise. -/
def jsF32Bits (v : JSNum) : Option Nat :=
  match v with
  | .nan => some 0x7FC00000
  | .inf neg => some ((if neg then 0x80000000 else 0) + 0x7F800000)
  | .fin neg q =>
    if q = 0 then some (if neg then 0x80000000 else 0)
    else (posRatBits 23 127 254 q).map (fun w => (if neg then 0x80000000 else 0) + w)

/-- The binary64 bit pattern of a JS number (`setFloat64` semantics for
values that are genuine doubles; canonical quiet NaN).  `none` only for
rationals that are not doubles, which cannot arise from JS values. -/
def jsF64Bits (v : JSNum) : Option Nat :=
  match v with
  | .nan => some 0x7FF8000000000000
  | .inf neg => some ((if neg then 0x8000000000000000 else 0) + 0x7FF0000000000000)
  | .fin neg q =>
    if q = 0 then some (if neg then 0x8000000000000000 else 0)
    else (posRatBits 52 1023 2046 q).map
      (fun w => (if neg then 0x8000000000000000 else 0) + w)

/-- Embedding of `parseHalf` from `src/half.ts`: unpack IEEE-754 binary16
from two bytes at `offset`, honoring byte order; NaNs are canonicalized.
The constant `5.9604644775390625e-8` of the source is exactly `2 ^ (-24)`,
and `sign * c * 0` produces a signed zero in JS, captured by the sign flag. -/
def parseHalf (buf : List Nat) (offset : Nat) (littleEndian : Bool) : JSNum :=
  let first := if littleEndian then buf.getD (offset + 1) 0 else buf.getD offset 0
  let second := if littleEndian then buf.getD offset 0 else buf.getD (offset + 1) 0
  let neg : Bool := first &&& 0x80 ≠ 0
  let exp := (first &&& 0x7C) >>> 2
  let mant := ((first &&& 0x03) <<< 8) ||| second
  if exp = 0 then .fin neg ((mant : ℚ) * ((2 : ℚ) ^ (24 : ℕ))⁻¹)
  else if exp = 0x1f then
    if mant ≠ 0 then .nan else .inf neg
  else .fin neg ((2 : ℚ) ^ ((exp : ℤ) - 25) * (1024 + (mant : ℚ)))

/-- Embedding of `halfToUint` from `src/half.ts`: the big-endian `u16` with
the same layout as the number as a binary16, or `none` if precision would be
lost.  The `Math.fround` gate and the `getUint32` extraction are fused into
`jsF32Bits` (see its doc). -/
def halfToUint (half : JSNum) : Option Nat :=
  match jsF32Bits half with
  | none => none
  | some u =>
    if u &&& 0x1FFF ≠ 0 then none
    else
      let s16 := (u >>> 16) &&& 0x8000
      let exp := (u >>> 23) &&& 0xff
      let mant := u &&& 0x7fffff
      if exp = 0 ∧ mant = 0 then some s16
      else if 113 ≤ exp ∧ exp ≤ 142 then
        some (s16 + ((exp - 112) <<< 10) + (mant >>> 13))
      else if 103 ≤ exp ∧ exp < 113 then
        if mant &&& ((1 <<< (126 - exp)) - 1) ≠ 0 then none
        else some (s16 + ((mant + 0x800000) >>> (126 - exp)))
      else if exp = 255 then some ((s16 ||| 0x7c00) ||| (mant >>> 13))
      else none

/-- Embedding of `isF16` from `src/half.ts` (the `halfToUint` fallback path;
`Math.f16round` agrees with it on every input). -/
def isF16 (n : JSNum) : Bool := (halfToUint n).isSome

/-! ### Bit-field arithmetic helpers -/

theorem and_mask_mod (x k : Nat) : x &&& (2 ^ k - 1) = x % 2 ^ k :=
  Nat.and_pow_two_sub_one_eq_mod x k

theorem and_bit (x k : Nat) : x &&& 2 ^ k = x / 2 ^ k % 2 * 2 ^ k := by
  rw [Nat.and_two_pow, Nat.testBit_to_div_mod]
  rcases Nat.mod_two_eq_zero_or_one (x / 2 ^ k) with h | h <;> simp [h]

theorem and_window (x j k : Nat) :
    x &&& (2 ^ k - 1) * 2 ^ j = x / 2 ^ j % 2 ^ k * 2 ^ j := by
  have h1 : (2 ^ k - 1) * 2 ^ j = (2 ^ k - 1) <<< j := (Nat.shiftLeft_eq _ j).symm
  have h2 : x / 2 ^ j % 2 ^ k * 2 ^ j = (x >>> j % 2 ^ k) <<< j := by
    rw [Nat.shiftLeft_eq, Nat.shiftRight_eq_div_pow]
  rw [h1, h2]
  apply Nat.eq_of_testBit_eq
  intro i
  simp only [Nat.testBit_and, Nat.testBit_shiftLeft, Nat.testBit_mod_two_pow,
    Nat.testBit_shiftRight, Nat.testBit_two_pow_sub_one]
  by_cases hij : j ≤ i
  · have : j + (i - j) = i := by omega
    simp [hij, this, Bool.and_comm, Bool.and_left_comm]
  · simp [hij]

theorem or_low_add {b : Nat} (a j : Nat) (hb : b < 2 ^ j) :
    (a <<< j) ||| b = a * 2 ^ j + b := by
  rw [Nat.shiftLeft_eq, Nat.mul_comm]
  exact (Nat.mul_add_lt_is_or hb a).symm

/-- Field extraction from a binary32 pattern assembled as sign bit, biased
exponent and mantissa. -/
theorem extract32 (s : Bool) (E m : Nat) (hE : E < 2 ^ 8) (hm : m < 2 ^ 23) :
    ((if s then 0x80000000 else 0) + (E * 2 ^ 23 + m)) &&& 0x1FFF = m % 2 ^ 13 ∧
    (((if s then 0x80000000 else 0) + (E * 2 ^ 23 + m)) >>> 16) &&& 0x8000 =
      (if s then 2 ^ 15 else 0) ∧
    (((if s then 0x80000000 else 0) + (E * 2 ^ 23 + m)) >>> 23) &&& 0xff = E ∧
    ((if s then 0x80000000 else 0) + (E * 2 ^ 23 + m)) &&& 0x7fffff = m := by
  have h13 : (0x1FFF : Nat) = 2 ^ 13 - 1 := by norm_num
  have h8 : (0xff : Nat) = 2 ^ 8 - 1 := by norm_num
  have h23 : (0x7fffff : Nat) = 2 ^ 23 - 1 := by norm_num
  have h15 : (0x8000 : Nat) = 2 ^ 15 := by norm_num
  rw [h13, h8, h23, h15, and_mask_mod, and_mask_mod, and_mask_mod, and_bit,
    Nat.shiftRight_eq_div_pow, Nat.shiftRight_eq_div_pow]
  cases s <;> simp only [Bool.false_eq_true, if_false, if_true] <;> refine ⟨by omega, by omega, by omega, by omega⟩

/-- Decoding a 16-bit binary16 pattern assembled as sign bit, exponent and
mantissa, as the two big-endian bytes `parseHalf` sees. -/
theorem parseHalf_split (s : Bool) (e10 m10 : Nat) (he : e10 < 2 ^ 5) (hm : m10 < 2 ^ 10) :
    parseHalf [((if s then 2 ^ 15 else 0) + (e10 * 2 ^ 10 + m10)) >>> 8,
               ((if s then 2 ^ 15 else 0) + (e10 * 2 ^ 10 + m10)) &&& 0xff] 0 false =
    (if e10 = 0 then JSNum.fin s ((m10 : ℚ) * ((2 : ℚ) ^ (24 : ℕ))⁻¹)
     else if e10 = 31 then (if m10 ≠ 0 then JSNum.nan else JSNum.inf s)
     else JSNum.fin s ((2 : ℚ) ^ ((e10 : ℤ) - 25) * (1024 + (m10 : ℚ)))) := by
  have h8 : (0xff : Nat) = 2 ^ 8 - 1 := by norm_num
  set u : Nat := (if s then 2 ^ 15 else 0) + (e10 * 2 ^ 10 + m10) with hu
  have hbyte : u &&& 0xff = m10 % 2 ^ 8 := by
    rw [h8, and_mask_mod, hu]; cases s <;> simp only [Bool.false_eq_true, if_false, if_true] <;> omega
  have hfirst : u >>> 8 = (if s then 2 ^ 7 else 0) + (e10 * 2 ^ 2 + m10 / 2 ^ 8) := by
    rw [Nat.shiftRight_eq_div_pow, hu]; cases s <;> simp only [Bool.false_eq_true, if_false, if_true] <;> omega
  rw [parseHalf]
  simp only [List.getD_cons_succ, List.getD_cons_zero, Bool.false_eq_true, if_false, hbyte, hfirst]
  set f : Nat := (if s then 2 ^ 7 else 0) + (e10 * 2 ^ 2 + m10 / 2 ^ 8) with hf
  have hneg : (decide (f &&& 0x80 ≠ 0)) = s := by
    have h7 : (0x80 : Nat) = 2 ^ 7 := by norm_num
    rw [h7, and_bit, hf]
    cases s
    · simp only [Bool.false_eq_true, if_false, decide_eq_false_iff_not]
      omega
    · simp only [if_true, decide_eq_true_eq]
      omega
  have hexp : (f &&& 0x7C) >>> 2 = e10 := by
    have h7c : (0x7C : Nat) = (2 ^ 5 - 1) * 2 ^ 2 := by norm_num
    rw [h7c, and_window, Nat.shiftRight_eq_div_pow, hf]
    cases s <;> simp only [Bool.false_eq_true, if_false, if_true] <;> omega
  have hmant : ((f &&& 0x03) <<< 8) ||| m10 % 2 ^ 8 = m10 := by
    have h3 : (0x03 : Nat) = 2 ^ 2 - 1 := by norm_num
    rw [h3, and_mask_mod, or_low_add _ _ (Nat.mod_lt _ (by norm_num)), hf]
    cases s <;> simp only [Bool.false_eq_true, if_false, if_true] <;> omega
  simp only [hneg, hexp, hmant]
/-! ### Characterization of the IEEE encoder -/

/-- Every successful output of `prbAux` is a genuine normal or subnormal
IEEE encoding of the magnitude `odd * 2 ^ e`. -/
theorem prbAux_some {mbits bias emax odd : Nat} {e : ℤ} {w : Nat}
    (hbias : 1 ≤ bias) (hodd : odd ≠ 0)
    (h : prbAux mbits bias emax odd e = some w) :
    (∃ E m, 1 ≤ E ∧ E ≤ emax ∧ m < 2 ^ mbits ∧ w = E * 2 ^ mbits + m ∧
        (odd : ℚ) * (2 : ℚ) ^ e =
          ((2 ^ mbits + m : Nat) : ℚ) * (2 : ℚ) ^ ((E : ℤ) - bias - mbits)) ∨
    (∃ m, 1 ≤ m ∧ m < 2 ^ mbits ∧ w = m ∧
        (odd : ℚ) * (2 : ℚ) ^ e = (m : ℚ) * (2 : ℚ) ^ (1 - (bias : ℤ) - mbits)) := by
  obtain ⟨hbpos, hb1, hb2⟩ := bitLen_bounds odd hodd
  rw [prbAux] at h
  split at h
  · -- normal path
    split at h
    · left
      rename_i hE1 hrange
      obtain ⟨hble, hEmax⟩ := hrange
      injection h with hw
      set b := bitLen odd with hbdef
      refine ⟨(e + b + bias - 1).toNat, odd * 2 ^ (mbits + 1 - b) - 2 ^ mbits,
        by omega, by omega, ?_, ?_, ?_⟩
      · have : odd * 2 ^ (mbits + 1 - b) < 2 ^ b * 2 ^ (mbits + 1 - b) :=
          mul_lt_mul_of_pos_right hb2 (Nat.two_pow_pos _)
        rw [← pow_add] at this
        have hexp : b + (mbits + 1 - b) = mbits + 1 := by omega
        rw [hexp] at this
        have h2m : (2 : Nat) ^ (mbits + 1) = 2 * 2 ^ mbits := by ring
        omega
      · rw [← hw, Nat.shiftLeft_eq]
      · -- value equation
        have hMlow : 2 ^ mbits ≤ odd * 2 ^ (mbits + 1 - b) := by
          calc (2 : Nat) ^ mbits = 2 ^ (b - 1) * 2 ^ (mbits + 1 - b) := by
                rw [← pow_add]; congr 1; omega
            _ ≤ odd * 2 ^ (mbits + 1 - b) := Nat.mul_le_mul_right _ hb1
        have hM : ((2 ^ mbits + (odd * 2 ^ (mbits + 1 - b) - 2 ^ mbits) : Nat) : ℚ)
            = (odd : ℚ) * 2 ^ (mbits + 1 - b) := by
          have : 2 ^ mbits + (odd * 2 ^ (mbits + 1 - b) - 2 ^ mbits)
              = odd * 2 ^ (mbits + 1 - b) := by omega
          rw [this]; push_cast; ring
        rw [hM]
        have hEcast : (((e + b + bias - 1).toNat : ℤ)) = e + b + bias - 1 := by omega
        rw [hEcast]
        have hcast2 : ((2 : ℚ) ^ (mbits + 1 - b) : ℚ) = (2 : ℚ) ^ ((mbits + 1 - b : Nat) : ℤ) := by
          rw [zpow_natCast]
        rw [mul_assoc, hcast2, ← zpow_add₀ (two_ne_zero (α := ℚ))]
        congr 2
        omega
    · exact absurd h (by simp)
  · split at h
    · right
      rename_i hEsmall hcond
      obtain ⟨hj0, hjlt⟩ := hcond
      injection h with hw
      refine ⟨odd * 2 ^ (e + ((bias - 1 + mbits : Nat) : ℤ)).toNat, ?_, hjlt, ?_, ?_⟩
      · exact Nat.mul_pos (Nat.pos_of_ne_zero hodd) (Nat.two_pow_pos _)
      · rw [← hw, Nat.shiftLeft_eq]
      · have hjcast : (((e + ((bias - 1 + mbits : Nat) : ℤ)).toNat : ℤ))
            = e + ((bias - 1 + mbits : Nat) : ℤ) := by omega
        set J : Nat := (e + ((bias - 1 + mbits : Nat) : ℤ)).toNat with hJ
        push_cast
        rw [mul_assoc]
        congr 1
        rw [← zpow_natCast (2 : ℚ) J, ← zpow_add₀ (two_ne_zero (α := ℚ))]
        congr 1
        omega
    · exact absurd h (by simp)
/-- Every successful output of `posRatBits` is a genuine normal or subnormal
IEEE encoding of the input magnitude. -/
theorem posRatBits_char {mbits bias emax : Nat} {q : ℚ} {w : Nat}
    (hbias : 1 ≤ bias) (h : posRatBits mbits bias emax q = some w) :
    (∃ E m, 1 ≤ E ∧ E ≤ emax ∧ m < 2 ^ mbits ∧ w = E * 2 ^ mbits + m ∧
        q = ((2 ^ mbits + m : Nat) : ℚ) * (2 : ℚ) ^ ((E : ℤ) - bias - mbits)) ∨
    (∃ m, 1 ≤ m ∧ m < 2 ^ mbits ∧ w = m ∧
        q = (m : ℚ) * (2 : ℚ) ^ (1 - (bias : ℤ) - mbits)) := by
  rw [posRatBits] at h
  split at h
  · exact absurd h (by simp)
  split at h
  · exact absurd h (by simp)
  rename_i hq0 hden
  have hq0' : 0 < q := lt_of_not_le hq0
  have hden' : q.den = 2 ^ tz q.den := not_ne_iff.mp hden
  have hnum : 0 < q.num := Rat.num_pos.mpr hq0'
  set n : Nat := q.num.toNat with hn
  have hnint : (n : ℤ) = q.num := by omega
  have hnne : n ≠ 0 := by omega
  obtain ⟨hoddodd, hfact⟩ := tz_spec n hnne
  set t := tz n with ht
  set odd := n >>> t with hodd
  have hoddne : odd ≠ 0 := by
    intro h0; rw [h0] at hoddodd; simp at hoddodd
  have hqval : q = (odd : ℚ) * (2 : ℚ) ^ ((t : ℤ) - (tz q.den : ℤ)) := by
    have h1 : q = (q.num : ℚ) / (q.den : ℚ) := (Rat.num_div_den q).symm
    have h2 : ((n : ℚ)) = (q.num : ℚ) := by exact_mod_cast hnint
    have h3 : (n : ℚ) = (odd : ℚ) * 2 ^ t := by exact_mod_cast congrArg (Nat.cast (R := ℚ)) hfact
    have hden2 : ((q.den : ℚ)) = (2 : ℚ) ^ (tz q.den) := by
      exact_mod_cast congrArg (Nat.cast (R := ℚ)) hden'
    conv_lhs => rw [h1]
    rw [← h2, h3, hden2, div_eq_mul_inv, mul_assoc]
    congr 1
    rw [← zpow_natCast (2 : ℚ) t, ← zpow_natCast (2 : ℚ) (tz q.den),
      ← zpow_neg, ← zpow_add₀ (two_ne_zero (α := ℚ))]
    congr 1
  have hmain := prbAux_some hbias hoddne h
  rw [← hqval] at hmain
  exact hmain

/-- Round-trip of the half-float codec: decoding any bit pattern produced by
`halfToUint` with `parseHalf` (big-endian bytes) recovers the input exactly,
including the sign of zeroes and canonical NaN. -/
theorem half_roundtrip (v : JSNum) (u : Nat) (h : halfToUint v = some u) :
    parseHalf [u >>> 8, u &&& 0xff] 0 false = v := by
  have hpow : ∀ q : ℚ, ((2 : ℚ) ^ (24 : ℕ))⁻¹ = (2 : ℚ) ^ (-(24 : ℤ)) ∧ q = q := by
    intro q
    refine ⟨?_, rfl⟩
    rw [← zpow_natCast (2 : ℚ) 24, ← zpow_neg]
    norm_num
  cases v with
  | nan =>
    have hn : halfToUint JSNum.nan = some 0x7E00 := by decide
    rw [hn] at h
    injection h with h
    rw [← h]
    simpa using parseHalf_split false 31 512 (by norm_num) (by norm_num)
  | inf neg =>
    cases neg
    · have hn : halfToUint (JSNum.inf false) = some 0x7C00 := by decide
      rw [hn] at h; injection h with h
      rw [← h]
      simpa using parseHalf_split false 31 0 (by norm_num) (by norm_num)
    · have hn : halfToUint (JSNum.inf true) = some 0xFC00 := by decide
      rw [hn] at h; injection h with h
      rw [← h]
      simpa using parseHalf_split true 31 0 (by norm_num) (by norm_num)
  | fin neg q =>
    by_cases hq : q = 0
    · subst hq
      cases neg
      · have hn : halfToUint (JSNum.fin false 0) = some 0 := by decide
        rw [hn] at h; injection h with h
        rw [← h]
        simpa using parseHalf_split false 0 0 (by norm_num) (by norm_num)
      · have hn : halfToUint (JSNum.fin true 0) = some 0x8000 := by decide
        rw [hn] at h; injection h with h
        rw [← h]
        simpa using parseHalf_split true 0 0 (by norm_num) (by norm_num)
    · cases hpr : posRatBits 23 127 254 q with
      | none =>
        rw [halfToUint] at h
        simp only [jsF32Bits, if_neg hq, hpr, Option.map_none'] at h
        exact absurd h (by simp)
      | some w =>
        rw [halfToUint] at h
        simp only [jsF32Bits, if_neg hq, hpr, Option.map_some'] at h
        rcases posRatBits_char (by norm_num) hpr with
          ⟨E, m, hE1, hEmax, hmlt, hww, hqeq⟩ | ⟨m, hm1, hmlt, hww, hqeq⟩
        · -- normal binary32 pattern
          subst hww
          obtain ⟨hx13, hx16, hxE, hxm⟩ := extract32 neg E m (by omega) hmlt
          rw [hx13, hx16, hxE, hxm] at h
          by_cases h13 : m % 2 ^ 13 = 0
          · rw [if_neg (by omega)] at h
            rw [if_neg (by omega)] at h
            by_cases hEnorm : 113 ≤ E ∧ E ≤ 142
            · -- binary16 normal range
              rw [if_pos hEnorm] at h
              injection h with hinj
              have hu2 : u = (if neg then 2 ^ 15 else 0) + ((E - 112) * 2 ^ 10 + m / 2 ^ 13) := by
                rw [← hinj, Nat.shiftLeft_eq, Nat.shiftRight_eq_div_pow, Nat.add_assoc]
              rw [hu2, parseHalf_split neg (E - 112) (m / 2 ^ 13) (by omega) (by omega),
                if_neg (by omega), if_neg (by omega)]
              congr 1
              rw [hqeq]
              have hnat : ((2 ^ 23 + m : Nat) : ℚ) = 2 ^ 13 * (1024 + ((m / 2 ^ 13 : Nat) : ℚ)) := by
                have hn2 : (2 ^ 23 + m : Nat) = 2 ^ 13 * (1024 + m / 2 ^ 13) := by omega
                rw [hn2]; push_cast; ring
              rw [hnat, show ((E - 112 : Nat) : ℤ) = (E : ℤ) - 112 by omega]
              rw [mul_comm ((2 : ℚ) ^ (13 : ℕ)) _, mul_assoc, mul_comm]
              congr 1
              rw [← zpow_natCast (2 : ℚ) 13, ← zpow_add₀ (two_ne_zero (α := ℚ))]
              congr 1
              omega
            · rw [if_neg hEnorm] at h
              by_cases hEsub : 103 ≤ E ∧ E < 113
              · -- binary16 subnormal range
                rw [if_pos hEsub] at h
                have hmask : m &&& ((1 <<< (126 - E)) - 1) = m % 2 ^ (126 - E) := by
                  rw [Nat.one_shiftLeft, and_mask_mod]
                rw [hmask] at h
                by_cases hg : m % 2 ^ (126 - E) = 0
                · rw [if_neg (by omega)] at h
                  injection h with hinj
                  have hmmval : (m + 0x800000) >>> (126 - E) = (m + 2 ^ 23) / 2 ^ (126 - E) := by
                    rw [Nat.shiftRight_eq_div_pow]; norm_num
                  have hmmlt : (m + 2 ^ 23) / 2 ^ (126 - E) < 2 ^ 10 := by
                    rw [Nat.div_lt_iff_lt_mul (Nat.two_pow_pos _)]
                    calc m + 2 ^ 23 < 2 ^ 24 := by omega
                      _ ≤ 2 ^ 10 * 2 ^ (126 - E) := by
                          rw [← pow_add]
                          exact pow_le_pow_right₀ (by norm_num) (by omega)
                  have hdvd : 2 ^ (126 - E) ∣ m + 2 ^ 23 :=
                    Nat.dvd_add (Nat.dvd_of_mod_eq_zero hg) (pow_dvd_pow 2 (by omega))
                  have hfact : 2 ^ (126 - E) * ((m + 2 ^ 23) / 2 ^ (126 - E)) = m + 2 ^ 23 :=
                    Nat.mul_div_cancel' hdvd
                  have hu2 : u = (if neg then 2 ^ 15 else 0) +
                      (0 * 2 ^ 10 + (m + 2 ^ 23) / 2 ^ (126 - E)) := by
                    rw [← hinj, hmmval]; ring
                  rw [hu2, parseHalf_split neg 0 _ (by norm_num) hmmlt, if_pos rfl]
                  congr 1
                  rw [hqeq]
                  have hnat : ((2 ^ 23 + m : Nat) : ℚ)
                      = (2 : ℚ) ^ (126 - E : Nat) * (((m + 2 ^ 23) / 2 ^ (126 - E) : Nat) : ℚ) := by
                    have hn3 : (2 ^ 23 + m : Nat)
                        = 2 ^ (126 - E) * ((m + 2 ^ 23) / 2 ^ (126 - E)) := by omega
                    rw [hn3]; push_cast; ring
                  rw [hnat, (hpow q).1]
                  rw [mul_comm ((2 : ℚ) ^ (126 - E : Nat)) _, mul_assoc]
                  congr 1
                  rw [← zpow_natCast (2 : ℚ) (126 - E), ← zpow_add₀ (two_ne_zero (α := ℚ))]
                  congr 1
                  omega
                · rw [if_pos (by simpa using hg)] at h
                  exact absurd h (by simp)
              · -- E outside every binary16 branch: encoder would have returned none
                rw [if_neg hEsub, if_neg (by omega)] at h
                exact absurd h (by simp)
          · rw [if_pos (by simpa using h13)] at h
            exact absurd h (by simp)
        · -- subnormal binary32 pattern: rejected by every branch
          rw [hww] at h
          have hsplit : (if neg then 0x80000000 else 0) + m
              = (if neg then 0x80000000 else 0) + (0 * 2 ^ 23 + m) := by ring
          rw [hsplit] at h
          obtain ⟨hx13, hx16, hxE, hxm⟩ := extract32 neg 0 m (by norm_num) hmlt
          rw [hx13, hx16, hxE, hxm] at h
          by_cases h13 : m % 2 ^ 13 = 0
          · rw [if_neg (by omega), if_neg (by omega), if_neg (by omega), if_neg (by omega)] at h
            exact absurd h (by simp)
          · rw [if_pos (by simpa using h13)] at h
            exact absurd h (by simp)

/-- C5: for every IEEE-754 double accepted by the half-float encoder
(`halfToUint v ≠ none`, equivalently `isF16`), decoding the returned 16-bit
big-endian pattern with `parseHalf` yields `v` again, with signed zeroes
preserved by sign and every NaN input decoding to NaN; in particular
`halfToUint 1.25 = 0x3D00` and `halfToUint 65536 = none`. -/
theorem C5_half_roundtrip :
    (∀ (v : JSNum) (u : Nat), halfToUint v = some u →
      parseHalf [u >>> 8, u &&& 0xff] 0 false = v) ∧
    halfToUint (JSNum.fin false (5 / 4)) = some 0x3D00 ∧
    halfToUint (JSNum.fin false 65536) = none := by
  refine ⟨half_roundtrip, ?_, by decide⟩
  rw [show (5 / 4 : ℚ) = mkRat 5 4 by norm_num [mkRat]]
  decide

/-- Witness for C5 applied at the concrete input 1.25. -/
theorem C5_half_roundtrip_witness :
    halfToUint (JSNum.fin false (5 / 4)) = some 0x3D00 ∧
    parseHalf [0x3D00 >>> 8, 0x3D00 &&& 0xff] 0 false = JSNum.fin false (5 / 4) := by
  have h125 : (5 / 4 : ℚ) = mkRat 5 4 := by norm_num [mkRat]
  refine ⟨by rw [h125]; decide, ?_⟩
  exact C5_half_roundtrip.1 (JSNum.fin false (5 / 4)) 0x3D00 (by rw [h125]; decide)

/-! ### Errors and the value domain -/

/-- The error domain of the embedded code: `TruncationError{start, requested,
size}` (the `requested` argument receives exactly what the source passes),
`RangeError` for invalid offsets (`offsetRange`), invalid writer values
(`range`), the invalid-seek `Error` of tolerant readers, `ExtraBytesError`,
strict-mode UTF-8 `TypeError`, a `DataView` out-of-bounds `RangeError`, and
the `TypeError` thrown when bigint and number are mixed. -/
inductive JSError where
  | truncation (start requested size : Nat) : JSError
  | offsetRange (offset : Nat) : JSError
  | seekTruncated : JSError
  | extraBytes (offset size : Nat) : JSError
  | utf8Decode : JSError
  | dataViewRange : JSError
  | range : JSError
  | typeMix : JSError
deriving DecidableEq, Repr

/-- The `FieldType` domain of decoded values: JS numbers, bigints, booleans,
strings (UTF-16 code units), byte arrays, arrays of values, and flag sets
(from `Packet.bits`). -/
inductive Value where
  | num (v : JSNum) : Value
  | big (v : Int) : Value
  | bool (b : Bool) : Value
  | str (s : List Nat) : Value
  | bytes (b : List Nat) : Value
  | arr (vs : List Value) : Value
  | flags (s : List String) : Value
deriving Repr

/-! ### Binary decoding helpers (`DataView` getters and `TextDecoder`) -/

/-- Big-endian byte-list to unsigned integer (`DataView.getUintN`). -/
def beNat (l : List Nat) : Nat := l.foldl (fun acc b => acc * 256 + b) 0

/-- Assemble bytes honoring endianness. -/
def bytesToNat (littleEndian : Bool) (l : List Nat) : Nat :=
  beNat (if littleEndian then l.reverse else l)

/-- Reinterpret a `w`-bit unsigned value as twos-complement signed. -/
def signedOfNat (w n : Nat) : Int :=
  if n < 2 ^ (w - 1) then (n : Int) else (n : Int) - 2 ^ w

/-- Decode an IEEE-754 bit pattern with `mbits` mantissa bits and `ebits`
exponent bits into a JS number (`DataView.getFloat32`/`getFloat64`). -/
def floatOfBits (mbits ebits : Nat) (bits : Nat) : JSNum :=
  let neg : Bool := bits >>> (mbits + ebits) % 2 = 1
  let exp := bits >>> mbits % 2 ^ ebits
  let mant := bits % 2 ^ mbits
  let bias := 2 ^ (ebits - 1) - 1
  if exp = 0 then
    .fin neg ((mant : ℚ) * (2 : ℚ) ^ (1 - (bias : ℤ) - mbits))
  else if exp = 2 ^ ebits - 1 then
    (if mant ≠ 0 then .nan else .inf neg)
  else
    .fin neg (((2 ^ mbits + mant : Nat) : ℚ) * (2 : ℚ) ^ ((exp : ℤ) - bias - mbits))

/-- Classification of a byte starting a new UTF-8 sequence (WHATWG decoder):
the initial code-point bits, how many continuation bytes are needed and the
admissible range of the first one; `none` for an invalid lead byte. -/
def utf8Lead (b : Nat) : Option (Nat × Nat × Nat × Nat) :=
  if b ≤ 0x7F then some (b, 0, 0x80, 0xBF)
  else if 0xC2 ≤ b ∧ b ≤ 0xDF then some (b &&& 0x1F, 1, 0x80, 0xBF)
  else if b = 0xE0 then some (b &&& 0xF, 2, 0xA0, 0xBF)
  else if b = 0xED then some (b &&& 0xF, 2, 0x80, 0x9F)
  else if 0xE0 ≤ b ∧ b ≤ 0xEF then some (b &&& 0xF, 2, 0x80, 0xBF)
  else if b = 0xF0 then some (b &&& 0x7, 3, 0x90, 0xBF)
  else if b = 0xF4 then some (b &&& 0x7, 3, 0x80, 0x8F)
  else if 0xF0 ≤ b ∧ b ≤ 0xF4 then some (b &&& 0x7, 3, 0x80, 0xBF)
  else none

/-- Byte-at-a-time WHATWG UTF-8 decoder: `none` state means no sequence is
pending.  In strict mode (`ignore = false`) any malformed input yields `none`
(`TypeError`); in replacement mode a U+FFFD is emitted and the offending
byte is reprocessed with a fresh state. -/
def utf8Go (ignore : Bool) : Option (Nat × Nat × Nat × Nat) → List Nat → Option (List Nat)
  | none, [] => some []
  | some _, [] => if ignore then some [0xFFFD] else none
  | none, b :: rest =>
    match utf8Lead b with
    | none => if ignore then (utf8Go ignore none rest).map (0xFFFD :: ·) else none
    | some (cp, 0, _, _) => (utf8Go ignore none rest).map (cp :: ·)
    | some st => utf8Go ignore (some st) rest
  | some (cp, needed, lo, hi), b :: rest =>
    if lo ≤ b ∧ b ≤ hi then
      if needed = 1 then (utf8Go ignore none rest).map (((cp <<< 6) ||| (b &&& 0x3F)) :: ·)
      else utf8Go ignore (some ((cp <<< 6) ||| (b &&& 0x3F), needed - 1, 0x80, 0xBF)) rest
    else if ignore then
      match utf8Lead b with
      | none => (utf8Go ignore none rest).map (fun t => 0xFFFD :: 0xFFFD :: t)
      | some (cp1, 0, _, _) => (utf8Go ignore none rest).map (fun t => 0xFFFD :: cp1 :: t)
      | some st => (utf8Go ignore (some st) rest).map (0xFFFD :: ·)
    else none

/-- Decode a UTF-8 byte list to code points per the configured error mode. -/
def utf8Decode (ignore : Bool) (l : List Nat) : Option (List Nat) :=
  utf8Go ignore none l

/-- A leading BOM is stripped (the source constructs both of its
`TextDecoder`s with `ignoreBOM: false`). -/
def utf8DecodeBOM (ignore : Bool) (l : List Nat) : Option (List Nat) :=
  (utf8Decode ignore l).map (fun cps =>
    match cps with
    | 0xFEFF :: t => t
    | _ => cps)

/-! ### The sequential typed reader (`src/reader.ts`) -/

/-- State of a `DataViewReader`: the immutable byte buffer (`#bytes`, renamed
`data` as Lean structures cannot reuse the method name `bytes`), the
configuration, the cursor and the sticky truncation flag. -/
structure DataViewReader where
  data : List Nat
  littleEndian : Bool
  ignoreUTF8errors : Bool
  allowTruncation : Bool
  offset : Nat
  truncated : Bool
deriving DecidableEq, Repr

namespace DataViewReader

/-- Embedding of the private `#check(add)`: if already truncated return NaN
(`none`); otherwise advance the cursor first and only then test the bound,
so the overshoot offset survives both the tolerant and the throwing path.
The `requested` argument of `TruncationError` receives `this.#offset`
(the post-advance offset), exactly as the source does. -/
def check (r : DataViewReader) (add : Nat) :
    Except JSError (Option Nat) × DataViewReader :=
  if r.truncated then (.ok none, r)
  else
    let start := r.offset
    let r1 : DataViewReader := { r with offset := start + add }
    if start + add > r.data.length then
      if r.allowTruncation then (.ok none, { r1 with truncated := true })
      else (.error (.truncation start (start + add) r.data.length), r1)
    else (.ok (some (start + add)), r1)

/-- A `DataView` getter over the backing buffer: `size` bytes at `start`, or
a `RangeError` if the view is exceeded. -/
def dvGet (r : DataViewReader) (start size : Nat) : Except JSError (List Nat) :=
  if start + size ≤ r.data.length then .ok ((r.data.drop start).take size)
  else .error .dataViewRange

/-- Shared shape of every fixed-width typed read: remember the start, run
`#check csz`, and on success decode `rsz` bytes at the start via the
`DataView`.  (`csz = rsz` everywhere except the `f64` defect, which checks 4
bytes but reads 8.) -/
def fixedRead (r : DataViewReader) (csz rsz : Nat) (sentinel : Value)
    (dec : List Nat → Value) : Except JSError Value × DataViewReader :=
  let start := r.offset
  match check r csz with
  | (.ok none, r1) => (.ok sentinel, r1)
  | (.ok (some _), r1) =>
    match dvGet r start rsz with
    | .ok l => (.ok (dec l), r1)
    | .error e => (.error e, r1)
  | (.error e, r1) => (.error e, r1)

/-- Reader `u8`. -/
def u8 (r : DataViewReader) : Except JSError Value × DataViewReader :=
  fixedRead r 1 1 (.num .nan) (fun l => .num (.fin false (bytesToNat false l)))

/-- Reader `u16`. -/
def u16 (r : DataViewReader) : Except JSError Value × DataViewReader :=
  fixedRead r 2 2 (.num .nan) (fun l => .num (.fin false (bytesToNat r.littleEndian l)))

/-- Reader `u32`. -/
def u32 (r : DataViewReader) : Except JSError Value × DataViewReader :=
  fixedRead r 4 4 (.num .nan) (fun l => .num (.fin false (bytesToNat r.littleEndian l)))

/-- Reader `u64` (bigint result; sentinel `-1n`). -/
def u64 (r : DataViewReader) : Except JSError Value × DataViewReader :=
  fixedRead r 8 8 (.big (-1)) (fun l => .big (bytesToNat r.littleEndian l))

/-- Reader `i8`. -/
def i8 (r : DataViewReader) : Except JSError Value × DataViewReader :=
  fixedRead r 1 1 (.num .nan)
    (fun l => .num (JSNum.fin (signedOfNat 8 (bytesToNat false l) < 0)
      |(signedOfNat 8 (bytesToNat false l))|.toNat))

/-- Reader `i16`. -/
def i16 (r : DataViewReader) : Except JSError Value × DataViewReader :=
  fixedRead r 2 2 (.num .nan)
    (fun l => .num (JSNum.fin (signedOfNat 16 (bytesToNat r.littleEndian l) < 0)
      |(signedOfNat 16 (bytesToNat r.littleEndian l))|.toNat))

/-- Reader `i32`. -/
def i32 (r : DataViewReader) : Except JSError Value × DataViewReader :=
  fixedRead r 4 4 (.num .nan)
    (fun l => .num (JSNum.fin (signedOfNat 32 (bytesToNat r.littleEndian l) < 0)
      |(signedOfNat 32 (bytesToNat r.littleEndian l))|.toNat))

/-- Reader `i64` (bigint result; sentinel `BAD_I64 = 1n <<< 64n`). -/
def i64 (r : DataViewReader) : Except JSError Value × DataViewReader :=
  fixedRead r 8 8 (.big (2 ^ 64)) (fun l => .big (signedOfNat 64 (bytesToNat r.littleEndian l)))

/-- Reader `f16` (the `parseHalf` fallback; `getFloat16` agrees). -/
def f16 (r : DataViewReader) : Except JSError Value × DataViewReader :=
  fixedRead r 2 2 (.num .nan) (fun l => .num (parseHalf l 0 r.littleEndian))

/-- Reader `f32`. -/
def f32 (r : DataViewReader) : Except JSError Value × DataViewReader :=
  fixedRead r 4 4 (.num .nan) (fun l => .num (floatOfBits 23 8 (bytesToNat r.littleEndian l)))

/-- Reader `f64`.  The source checks only 4 bytes (`#check(4)`) before the
8-byte `getFloat64`, although its doc comment says the read advances the
position by 8 bytes; the embedding reproduces the code. -/
def f64 (r : DataViewReader) : Except JSError Value × DataViewReader :=
  fixedRead r 4 8 (.num .nan) (fun l => .num (floatOfBits 52 11 (bytesToNat r.littleEndian l)))

/-- Reader `bytes(length)` as a byte list:
`subarray(#offset, #check(length))`; the old offset is read before `#check`
runs, and a NaN end index clamps to 0, giving an empty view once truncated. -/
def bytesRead (r : DataViewReader) (length : Nat) :
    Except JSError (List Nat) × DataViewReader :=
  let start := r.offset
  match check r length with
  | (.ok none, r1) => (.ok [], r1)
  | (.ok (some e), r1) => (.ok ((r.data.drop start).take (e - start)), r1)
  | (.error err, r1) => (.error err, r1)

/-- Reader `bytes(length)`. -/
def bytes (r : DataViewReader) (length : Nat) : Except JSError Value × DataViewReader :=
  match bytesRead r length with
  | (.ok l, r1) => (.ok (.bytes l), r1)
  | (.error e, r1) => (.error e, r1)

/-- Reader `ascii(length)`: `String.fromCharCode(...bytes)` maps bytes to
UTF-16 code units one-for-one. -/
def ascii (r : DataViewReader) (length : Nat) : Except JSError Value × DataViewReader :=
  match bytesRead r length with
  | (.ok l, r1) => (.ok (.str l), r1)
  | (.error e, r1) => (.error e, r1)

/-- Reader `utf8(length)`: read bytes, then decode with the configured
`TextDecoder`. -/
def utf8 (r : DataViewReader) (length : Nat) : Except JSError Value × DataViewReader :=
  match bytesRead r length with
  | (.ok l, r1) =>
    (match utf8DecodeBOM r.ignoreUTF8errors l with
     | some cps => (.ok (.str cps), r1)
     | none => (.error .utf8Decode, r1))
  | (.error e, r1) => (.error e, r1)

/-- Reader `skip(length)`: just `#check(length)`. -/
def skip (r : DataViewReader) (length : Nat) : Except JSError Unit × DataViewReader :=
  match check r length with
  | (.ok _, r1) => (.ok (), r1)
  | (.error e, r1) => (.error e, r1)

/-- Reader `seek(offset)`: rejected outright on tolerant readers; otherwise
`#checkOffset` validates the offset before the assignment (so a failed seek
leaves the state unchanged). -/
def seek (r : DataViewReader) (offset : Nat) : Except JSError Unit × DataViewReader :=
  if r.allowTruncation then (.error .seekTruncated, r)
  else if offset > r.data.length then (.error (.offsetRange offset), r)
  else (.ok (), { r with offset := offset })

/-- Reader `reset()`: cursor to 0, truncation flag cleared. -/
def reset (r : DataViewReader) : DataViewReader :=
  { r with truncated := false, offset := 0 }

/-- Reader `unused()`: zero-copy view of the remaining bytes (`subarray`
clamps an overshot cursor to the end). -/
def unused (r : DataViewReader) : List Nat :=
  r.data.drop r.offset

/-- Reader `complete()`: `ExtraBytesError` on leftover bytes unless
truncated. -/
def complete (r : DataViewReader) : Except JSError Unit × DataViewReader :=
  if ¬ r.truncated ∧ r.offset ≠ r.data.length then
    (.error (.extraBytes r.offset r.data.length), r)
  else (.ok (), r)

/-- The `allowTruncation` setter: may only switch the mode on. -/
def setAllowTruncation (r : DataViewReader) (val : Bool) :
    Except JSError Unit × DataViewReader :=
  if ¬ val then (.error .range, r)
  else (.ok (), { r with allowTruncation := true })

/-- The `truncated` setter: may only be set to `true`. -/
def setTruncated (r : DataViewReader) (val : Bool) :
    Except JSError Unit × DataViewReader :=
  if ¬ val then (.error .range, r)
  else (.ok (), { r with truncated := true })

/-- Constructor: validates the initial offset with `#checkOffset`. -/
def mk? (data : List Nat) (offset : Nat) (littleEndian ignoreUTF8errors allowTruncation : Bool) :
    Except JSError DataViewReader :=
  if offset > data.length then .error (.offsetRange offset)
  else .ok ⟨data, littleEndian, ignoreUTF8errors, allowTruncation, offset, false⟩

/-- Loop body of `times`: the JS
`for (let i = 0; !this.#truncated && (i < num); i++) res[i] = fn.call(this, i)`
with the remaining iteration count as fuel; a throwing `fn` aborts the loop
but its reader mutations persist. -/
def timesAux (fn : Nat → DataViewReader → Except JSError Value × DataViewReader) :
    Nat → Nat → DataViewReader → Except JSError (List Value) × DataViewReader
  | _, 0, r => (.ok [], r)
  | i, num + 1, r =>
    if r.truncated then (.ok [], r)
    else
      match fn i r with
      | (.error e, r1) => (.error e, r1)
      | (.ok v, r1) =>
        match timesAux fn (i + 1) num r1 with
        | (.error e, r2) => (.error e, r2)
        | (.ok vs, r2) => (.ok (v :: vs), r2)

/-- Reader `times(num, fn)`. -/
def times (r : DataViewReader) (num : Nat)
    (fn : Nat → DataViewReader → Except JSError Value × DataViewReader) :
    Except JSError (List Value) × DataViewReader :=
  timesAux fn 0 num r

end DataViewReader

/-! ### The typed-read operations as a datatype -/

/-- One typed read of the Reader. -/
inductive ROp where
  | u8 : ROp
  | u16 : ROp
  | u32 : ROp
  | u64 : ROp
  | i8 : ROp
  | i16 : ROp
  | i32 : ROp
  | i64 : ROp
  | f16 : ROp
  | f32 : ROp
  | f64 : ROp
  | bytes (n : Nat) : ROp
  | ascii (n : Nat) : ROp
  | utf8 (n : Nat) : ROp
deriving DecidableEq, Repr

/-- Run one typed read. -/
def runROp (r : DataViewReader) : ROp → Except JSError Value × DataViewReader
  | .u8 => r.u8
  | .u16 => r.u16
  | .u32 => r.u32
  | .u64 => r.u64
  | .i8 => r.i8
  | .i16 => r.i16
  | .i32 => r.i32
  | .i64 => r.i64
  | .f16 => r.f16
  | .f32 => r.f32
  | .f64 => r.f64
  | .bytes n => r.bytes n
  | .ascii n => r.ascii n
  | .utf8 n => r.utf8 n

/-- The byte width of each typed read per its documented type (`f64` is an
8-byte type). -/
def ROp.width : ROp → Nat
  | .u8 | .i8 => 1
  | .u16 | .i16 | .f16 => 2
  | .u32 | .i32 | .f32 => 4
  | .u64 | .i64 | .f64 => 8
  | .bytes n | .ascii n | .utf8 n => n

/-- The size each typed read actually passes to `#check` — equal to `width`
everywhere except `f64`, which passes 4. -/
def ROp.checkSize : ROp → Nat
  | .f64 => 4
  | op => op.width

/-- The sentinel each typed read returns once the reader is truncated. -/
def ROp.sentinel : ROp → Value
  | .u8 | .u16 | .u32 | .i8 | .i16 | .i32 | .f16 | .f32 | .f64 => .num .nan
  | .u64 => .big (-1)
  | .i64 => .big (2 ^ 64)
  | .bytes _ => .bytes []
  | .ascii _ | .utf8 _ => .str []

/-- C1 (code defect): on the 8-byte buffer `[1,…,8]` the strict-mode `f64`
read returns normally (no error, no truncation) yet leaves the cursor at 4,
not at `0 + 8` as the claim and the doc comment of the method state:
the source guards `getFloat64` with `#check(4)`. -/
theorem C1_f64_checks_four_bytes :
    ((DataViewReader.mk [1, 2, 3, 4, 5, 6, 7, 8] false false false 0 false).f64.2.offset = 4 ∧
     (DataViewReader.mk [1, 2, 3, 4, 5, 6, 7, 8] false false false 0 false).f64.2.truncated = false ∧
     (DataViewReader.mk [1, 2, 3, 4, 5, 6, 7, 8] false false false 0 false).f64.1.isOk = true) ∧
    (4 : Nat) ≠ 0 + 8 :=
  ⟨⟨rfl, rfl, rfl⟩, by norm_num⟩

/-- C4 (code defect): a strict reader over 2 bytes at offset 1 asked for a
4-byte `u32` throws `TruncationError` whose `requested` field is 5 — the
source passes the post-advance offset `start + requested` where both its own
doc comment (`@param requested The number of bytes requested`) and the spec
promise the number of bytes requested, 4. -/
theorem C4_truncation_error_requested_field :
    (DataViewReader.mk [0, 0] false false false 1 false).u32.1 =
      .error (.truncation 1 5 2) ∧ (5 : Nat) ≠ 4 :=
  ⟨rfl, by norm_num⟩

/-- Length bound for the `times` loop: a normal return has one entry per
iteration begun, and fewer than `num` entries only when the loop stopped on
the truncation flag. -/
theorem timesAux_length
    (fn : Nat → DataViewReader → Except JSError Value × DataViewReader) :
    ∀ (num i : Nat) (r : DataViewReader) (vs : List Value) (r2 : DataViewReader),
      DataViewReader.timesAux fn i num r = (.ok vs, r2) →
      vs.length ≤ num ∧ (vs.length < num → r2.truncated = true) := by
  intro num
  induction num with
  | zero =>
    intro i r vs r2 h
    rw [DataViewReader.timesAux] at h
    injection h with h1 h2
    injection h1 with h1
    subst h1
    simp
  | succ num ih =>
    intro i r vs r2 h
    rw [DataViewReader.timesAux] at h
    by_cases ht : r.truncated
    · rw [if_pos ht] at h
      injection h with h1 h2
      injection h1 with h1
      subst h1 h2
      refine ⟨by simp, fun _ => ht⟩
    · rw [if_neg ht] at h
      rcases hfn : fn i r with ⟨res, r1⟩
      rw [hfn] at h
      cases res with
      | error e => simp at h
      | ok v =>
        dsimp only at h
        rcases haux : DataViewReader.timesAux fn (i + 1) num r1 with ⟨res2, r2x⟩
        rw [haux] at h
        cases res2 with
        | error e => simp at h
        | ok vs1 =>
          injection h with h1 h2
          injection h1 with h1
          subst h1 h2
          obtain ⟨ihl, iht⟩ := ih (i + 1) r1 vs1 r2x haux
          constructor
          · simpa using ihl
          · intro hlt
            exact iht (by simpa using hlt)


/-- C2 counterexample: over a tolerant 2-byte reader `[1, 2]`,
`times(4, u8)` returns a three-entry array ending in the NaN sentinel of the
iteration that set the truncation flag — not `[1, 2]` as claimed (the loop
re-tests `truncated` only before the next iteration, after `res[i] = fn(i)`
has already stored the sentinel). -/
theorem C2_times_counterexample :
    (DataViewReader.times ⟨[1, 2], false, false, true, 0, false⟩ 4
        (fun _ r => r.u8)).1 =
      .ok [.num (.fin false 1), .num (.fin false 2), .num .nan] ∧
    [Value.num (.fin false 1), .num (.fin false 2), .num .nan] ≠
      [Value.num (.fin false 1), .num (.fin false 2)] :=
  ⟨rfl, by simp⟩

/-- C2 amended: `times(n, fn)` calls `fn` once per iteration begun and
returns one result per call; iterations after truncation becomes true are
skipped (a short result implies the reader ended truncated), but the
sentinel produced by the very iteration that triggered truncation is kept:
over a tolerant 2-byte reader `[1, 2]`, `times(4, u8)` yields
`[1, 2, NaN]`. -/
theorem C2_times_amended :
    (∀ (fn : Nat → DataViewReader → Except JSError Value × DataViewReader)
        (num : Nat) (r : DataViewReader) (vs : List Value) (r2 : DataViewReader),
      DataViewReader.times r num fn = (.ok vs, r2) →
      vs.length ≤ num ∧ (vs.length < num → r2.truncated = true)) ∧
    DataViewReader.times ⟨[1, 2], false, false, true, 0, false⟩ 4 (fun _ r => r.u8) =
      (.ok [.num (.fin false 1), .num (.fin false 2), .num .nan],
       ⟨[1, 2], false, false, true, 3, true⟩) :=
  ⟨fun fn num r vs r2 h => timesAux_length fn num 0 r vs r2 h, rfl⟩

/-- Witness for C2 applied at the tolerant 2-byte example. -/
theorem C2_times_amended_witness :
    [Value.num (.fin false 1), .num (.fin false 2), .num .nan].length ≤ 4 ∧
    ([Value.num (.fin false 1), .num (.fin false 2), .num .nan].length < 4 →
      (⟨[1, 2], false, false, true, 3, true⟩ : DataViewReader).truncated = true) :=
  C2_times_amended.1 (fun _ r => r.u8) 4 ⟨[1, 2], false, false, true, 0, false⟩
    [.num (.fin false 1), .num (.fin false 2), .num .nan]
    ⟨[1, 2], false, false, true, 3, true⟩ rfl

namespace DataViewReader

theorem check_snd_offset (r : DataViewReader) (add : Nat) (h : r.truncated = false) :
    (check r add).2.offset = r.offset + add := by
  rw [check, if_neg (by simp [h])]
  dsimp only
  split
  · split <;> rfl
  · rfl

theorem check_snd_truncated (r : DataViewReader) (add : Nat) (h : r.truncated = false) :
    (check r add).2.truncated =
      (decide (r.data.length < r.offset + add) && r.allowTruncation) := by
  rw [check, if_neg (by simp [h])]
  dsimp only
  by_cases hgt : r.offset + add > r.data.length
  · rw [if_pos hgt]
    by_cases hat : r.allowTruncation
    · rw [if_pos hat]
      have hd : decide (r.data.length < r.offset + add) = true := by
        simp only [decide_eq_true_eq]
        omega
      simp [hd, hat]
    · rw [if_neg hat]
      have hat2 : r.allowTruncation = false := by simpa using hat
      simp [hat2, h]
  · rw [if_neg hgt]
    have hd : decide (r.data.length < r.offset + add) = false := by
      simp only [decide_eq_false_iff_not]
      omega
    simp [hd, h]

theorem check_fst_error (r : DataViewReader) (add : Nat) (h : r.truncated = false)
    (h2 : r.data.length < r.offset + add) (h3 : r.allowTruncation = false) :
    (check r add).1 = .error (.truncation r.offset (r.offset + add) r.data.length) := by
  rw [check, if_neg (by simp [h]), if_pos (by omega), if_neg (by simp [h3])]

theorem fixedRead_snd (r : DataViewReader) (csz rsz : Nat) (sv : Value)
    (d : List Nat → Value) : (fixedRead r csz rsz sv d).2 = (check r csz).2 := by
  rw [fixedRead]
  rcases hc : check r csz with ⟨res, r1⟩
  match res with
  | .ok none => rfl
  | .ok (some e) =>
    dsimp only
    cases dvGet r r.offset rsz <;> rfl
  | .error e => rfl

theorem fixedRead_fst_error (r : DataViewReader) (csz rsz : Nat) (sv : Value)
    (d : List Nat → Value) (e : JSError) (h : (check r csz).1 = .error e) :
    (fixedRead r csz rsz sv d).1 = .error e := by
  rw [fixedRead]
  rcases hc : check r csz with ⟨res, r1⟩
  rw [hc] at h
  match res, h with
  | .error e1, h =>
    dsimp only at h ⊢
    injection h with h1
    rw [h1]

theorem bytesRead_snd (r : DataViewReader) (n : Nat) :
    (bytesRead r n).2 = (check r n).2 := by
  rw [bytesRead]
  rcases hc : check r n with ⟨res, r1⟩
  match res with
  | .ok none => rfl
  | .ok (some e) => rfl
  | .error e => rfl

theorem bytesRead_fst_error (r : DataViewReader) (n : Nat) (e : JSError)
    (h : (check r n).1 = .error e) : (bytesRead r n).1 = .error e := by
  rw [bytesRead]
  rcases hc : check r n with ⟨res, r1⟩
  rw [hc] at h
  match res, h with
  | .error e1, h =>
    dsimp only at h ⊢
    injection h with h1
    rw [h1]

theorem ascii_eta (r : DataViewReader) (n : Nat) :
    ((ascii r n).2 = (bytesRead r n).2) ∧
    (∀ e, (bytesRead r n).1 = .error e → (ascii r n).1 = .error e) := by
  rw [ascii]
  rcases hb : bytesRead r n with ⟨res, r1⟩
  match res with
  | .ok l => exact ⟨rfl, by intro e he; simp at he⟩
  | .error e1 =>
    refine ⟨rfl, ?_⟩
    intro e he
    dsimp only at he ⊢
    injection he with h1
    rw [h1]

theorem utf8_eta (r : DataViewReader) (n : Nat) :
    ((utf8 r n).2 = (bytesRead r n).2) ∧
    (∀ e, (bytesRead r n).1 = .error e → (utf8 r n).1 = .error e) := by
  rw [utf8]
  rcases hb : bytesRead r n with ⟨res, r1⟩
  match res with
  | .ok l =>
    refine ⟨?_, by intro e he; simp at he⟩
    dsimp only
    cases utf8DecodeBOM r.ignoreUTF8errors l <;> rfl
  | .error e1 =>
    refine ⟨rfl, ?_⟩
    intro e he
    dsimp only at he ⊢
    injection he with h1
    rw [h1]

theorem bytes_eta (r : DataViewReader) (n : Nat) :
    ((bytes r n).2 = (bytesRead r n).2) ∧
    (∀ e, (bytesRead r n).1 = .error e → (bytes r n).1 = .error e) := by
  rw [bytes]
  rcases hb : bytesRead r n with ⟨res, r1⟩
  match res with
  | .ok l => exact ⟨rfl, by intro e he; simp at he⟩
  | .error e1 =>
    refine ⟨rfl, ?_⟩
    intro e he
    dsimp only at he ⊢
    injection he with h1
    rw [h1]

theorem skip_snd (r : DataViewReader) (n : Nat) :
    (skip r n).2 = (check r n).2 := by
  rw [skip]
  rcases hc : check r n with ⟨res, r1⟩
  match res with
  | .ok v => rfl
  | .error e => rfl

theorem seek_spec (r : DataViewReader) (o : Nat) :
    ((r.seek o).1.isOk = true → (r.seek o).2.offset = o ∧ (r.seek o).2.offset ≤ r.data.length) ∧
    ((r.seek o).1.isOk = false → (r.seek o).2 = r) := by
  rw [seek]
  by_cases hA : r.allowTruncation
  · rw [if_pos hA]
    exact ⟨by intro hk; simp [Except.isOk, Except.toBool] at hk, fun _ => rfl⟩
  · rw [if_neg hA]
    by_cases ho : o > r.data.length
    · rw [if_pos ho]
      exact ⟨by intro hk; simp [Except.isOk, Except.toBool] at hk, fun _ => rfl⟩
    · rw [if_neg ho]
      refine ⟨fun _ => ⟨rfl, by dsimp only; omega⟩, ?_⟩
      intro hk
      simp [Except.isOk, Except.toBool] at hk

end DataViewReader

/-- The second component of every typed read is the state `#check` leaves
behind (the check size being 4 for `f64`). -/
theorem runROp_snd (r : DataViewReader) (op : ROp) :
    (runROp r op).2 = (DataViewReader.check r op.checkSize).2 := by
  cases op with
  | bytes n => exact (DataViewReader.bytes_eta r n).1.trans (DataViewReader.bytesRead_snd r n)
  | ascii n => exact (DataViewReader.ascii_eta r n).1.trans (DataViewReader.bytesRead_snd r n)
  | utf8 n => exact (DataViewReader.utf8_eta r n).1.trans (DataViewReader.bytesRead_snd r n)
  | _ => exact DataViewReader.fixedRead_snd _ _ _ _ _

/-- Typed reads propagate the error `#check` throws. -/
theorem runROp_fst_error (r : DataViewReader) (op : ROp) (e : JSError)
    (h : (DataViewReader.check r op.checkSize).1 = .error e) :
    (runROp r op).1 = .error e := by
  cases op with
  | bytes n => exact (DataViewReader.bytes_eta r n).2 e (DataViewReader.bytesRead_fst_error r n e h)
  | ascii n => exact (DataViewReader.ascii_eta r n).2 e (DataViewReader.bytesRead_fst_error r n e h)
  | utf8 n => exact (DataViewReader.utf8_eta r n).2 e (DataViewReader.bytesRead_fst_error r n e h)
  | _ => exact DataViewReader.fixedRead_fst_error _ _ _ _ _ _ h

/-- C3 amended: the cursor is never negative (it is a natural number), and it
stays within `0 ≤ offset ≤ length` after every operation that completes
without a truncation event; but the access that overruns the end — tolerant
(sets the flag) or strict (throws `TruncationError`) — first advances the
cursor to `start + size`, which exceeds the length and is left behind.
`seek` validates before moving, `reset` zeroes the cursor, and `complete`
never moves it. -/
theorem C3_cursor_bounds_amended :
    ∀ (r : DataViewReader) (op : ROp), r.truncated = false →
      ((runROp r op).2.offset = r.offset + op.checkSize) ∧
      (r.offset + op.checkSize ≤ r.data.length →
        (runROp r op).2.offset ≤ r.data.length ∧ (runROp r op).2.truncated = false) ∧
      (r.data.length < r.offset + op.checkSize → r.allowTruncation = false →
        (runROp r op).1 = .error (.truncation r.offset (r.offset + op.checkSize) r.data.length)) ∧
      (r.data.length < r.offset + op.checkSize → r.allowTruncation = true →
        (runROp r op).2.truncated = true) ∧
      (∀ n, (r.skip n).2.offset = r.offset + n) ∧
      (∀ o, ((r.seek o).1.isOk = true →
          (r.seek o).2.offset = o ∧ (r.seek o).2.offset ≤ r.data.length) ∧
        ((r.seek o).1.isOk = false → (r.seek o).2 = r)) ∧
      r.reset.offset = 0 ∧ (r.complete).2 = r := by
  intro r op h
  refine ⟨?_, ?_, ?_, ?_, ?_, fun o => DataViewReader.seek_spec r o, rfl, ?_⟩
  · rw [runROp_snd]
    exact DataViewReader.check_snd_offset r _ h
  · intro hle
    constructor
    · rw [runROp_snd, DataViewReader.check_snd_offset r _ h]
      exact hle
    · rw [runROp_snd, DataViewReader.check_snd_truncated r _ h]
      have hd : decide (r.data.length < r.offset + op.checkSize) = false := by
        simp only [decide_eq_false_iff_not]
        omega
      simp [hd]
  · intro hgt hat
    exact runROp_fst_error r op _ (DataViewReader.check_fst_error r _ h hgt hat)
  · intro hgt hat
    rw [runROp_snd, DataViewReader.check_snd_truncated r _ h]
    have hd : decide (r.data.length < r.offset + op.checkSize) = true := by
      simp only [decide_eq_true_eq]
      omega
    simp [hd, hat]
  · intro n
    rw [DataViewReader.skip_snd, DataViewReader.check_snd_offset r _ h]
  · rw [DataViewReader.complete]
    split <;> rfl

/-- C3 counterexample: a tolerant reader over 4 bytes asked for `bytes(64)`
returns normally (sentinel) with its cursor at 64, violating
`offset ≤ length = 4` — `#check` advances the cursor before the bounds test
and never restores it. -/
theorem C3_cursor_bounds_counterexample :
    (DataViewReader.bytes ⟨[0, 0, 0, 0], false, false, true, 0, false⟩ 64).2.offset = 64 ∧
    ¬(64 ≤ ([0, 0, 0, 0] : List Nat).length) :=
  ⟨rfl, by simp⟩

/-- Witness for the amended C3 at a concrete in-bounds read. -/
theorem C3_cursor_bounds_amended_witness :
    (runROp ⟨[0, 0, 0, 0], false, false, false, 0, false⟩ ROp.u16).2.offset =
      (⟨[0, 0, 0, 0], false, false, false, 0, false⟩ : DataViewReader).offset +
        ROp.checkSize ROp.u16 :=
  (C3_cursor_bounds_amended ⟨[0, 0, 0, 0], false, false, false, 0, false⟩ ROp.u16 rfl).1

namespace DataViewReader

theorem check_of_truncated (r : DataViewReader) (add : Nat) (h : r.truncated = true) :
    check r add = (.ok none, r) := by
  rw [check, if_pos h]

theorem fixedRead_of_truncated (r : DataViewReader) (csz rsz : Nat) (sv : Value)
    (d : List Nat → Value) (h : r.truncated = true) :
    fixedRead r csz rsz sv d = (.ok sv, r) := by
  rw [fixedRead, check_of_truncated r csz h]

theorem bytesRead_of_truncated (r : DataViewReader) (n : Nat) (h : r.truncated = true) :
    bytesRead r n = (.ok [], r) := by
  rw [bytesRead, check_of_truncated r n h]

end DataViewReader

/-- C9: once a reader is truncated, every typed read returns its sentinel
immediately and leaves the whole state — the cursor in particular —
unchanged; `skip` is inert; `reset` (alone) zeroes the cursor and clears the
flag; `seek` on a tolerant reader always throws without moving the cursor;
`complete` is a no-op; and the two setters can keep but never clear the
flag. -/
theorem C9_frozen_after_truncation :
    ∀ (r : DataViewReader), r.truncated = true →
      (∀ op : ROp, runROp r op = (.ok op.sentinel, r)) ∧
      (∀ n, r.skip n = (.ok (), r)) ∧
      (r.reset.offset = 0 ∧ r.reset.truncated = false) ∧
      (r.allowTruncation = true → ∀ o, r.seek o = (.error .seekTruncated, r)) ∧
      r.complete = (.ok (), r) ∧
      (∀ v, (r.setTruncated v).2.truncated = true ∧ (r.setTruncated v).2.offset = r.offset) ∧
      (∀ v, (r.setAllowTruncation v).2.truncated = true ∧
        (r.setAllowTruncation v).2.offset = r.offset) := by
  intro r h
  refine ⟨?_, ?_, ⟨rfl, rfl⟩, ?_, ?_, ?_, ?_⟩
  · intro op
    cases op with
    | bytes n =>
      rw [runROp, DataViewReader.bytes, DataViewReader.bytesRead_of_truncated r n h]
      rfl
    | ascii n =>
      rw [runROp, DataViewReader.ascii, DataViewReader.bytesRead_of_truncated r n h]
      rfl
    | utf8 n =>
      rw [runROp, DataViewReader.utf8, DataViewReader.bytesRead_of_truncated r n h]
      rfl
    | _ => exact DataViewReader.fixedRead_of_truncated r _ _ _ _ h
  · intro n
    rw [DataViewReader.skip, DataViewReader.check_of_truncated r n h]
  · intro hA o
    rw [DataViewReader.seek, if_pos hA]
  · rw [DataViewReader.complete, if_neg (by simp [h])]
  · intro v
    rw [DataViewReader.setTruncated]
    split
    · exact ⟨h, rfl⟩
    · exact ⟨rfl, rfl⟩
  · intro v
    rw [DataViewReader.setAllowTruncation]
    split
    · exact ⟨h, rfl⟩
    · exact ⟨h, rfl⟩

/-- Witness for C9: a concrete truncated tolerant reader returns the NaN
sentinel from `u8` without moving its cursor. -/
theorem C9_frozen_after_truncation_witness :
    runROp ⟨[1, 2], false, false, true, 3, true⟩ ROp.u8 =
      (.ok (.num .nan), ⟨[1, 2], false, false, true, 3, true⟩) :=
  (C9_frozen_after_truncation ⟨[1, 2], false, false, true, 3, true⟩ rfl).1 ROp.u8

/-! ### The growable typed writer (`src/writer.ts`) -/

/-- A `number | bigint` argument. -/
inductive NumBig where
  | num (v : JSNum) : NumBig
  | big (v : Int) : NumBig
deriving Repr

/-- `Number.isSafeInteger`: an integral double of magnitude at most
`2 ^ 53 - 1`. -/
def jsIsSafeInteger : JSNum → Bool
  | .fin _ q => q.den = 1 ∧ q.num ≤ 2 ^ 53 - 1
  | _ => false

/-- JS `<` between a number and an integer (NaN compares false). -/
def jsLtInt : JSNum → Int → Bool
  | .nan, _ => false
  | .inf neg, _ => neg
  | .fin neg q, m => (if neg then -q else q) < (m : ℚ)

/-- JS `>` between a number and an integer (NaN compares false). -/
def jsGtInt : JSNum → Int → Bool
  | .nan, _ => false
  | .inf neg, _ => !neg
  | .fin neg q, m => (m : ℚ) < (if neg then -q else q)

/-- Embedding of `intRange` from `src/writer.ts`: `true` iff the guard
throws — a non-bigint that is not a safe integer, or a value outside
`[lo, hi]`. -/
def intRangeBad : NumBig → Int → Int → Bool
  | .num v, lo, hi => !jsIsSafeInteger v || jsLtInt v lo || jsGtInt v hi
  | .big b, lo, hi => decide (b < lo) || decide (hi < b)

/-- The integer value of a safe-integer JS number (0 for the other shapes,
which the range guard has already excluded). -/
def jsIntVal : JSNum → Int
  | .fin neg q => if neg then -q.num else q.num
  | _ => 0

/-- The `number | bigint` value as an integer (`BigInt(n)` after the range
guard). -/
def nbInt : NumBig → Int
  | .num v => jsIntVal v
  | .big b => b

/-- Big-endian fixed-width encoding of an unsigned value. -/
def natBytesBE (width n : Nat) : List Nat :=
  (List.range width).map (fun i => n >>> (8 * (width - 1 - i)) % 256)

/-- `DataView` setter byte image: twos-complement `width`-byte encoding of
`x`, honoring endianness. -/
def encBytes (littleEndian : Bool) (width : Nat) (x : Int) : List Nat :=
  let be := natBytesBE width (x.emod (2 ^ (8 * width))).toNat
  if littleEndian then be.reverse else be

/-- UTF-16 code units to Unicode scalar values with a pending high
surrogate as state; unpaired surrogates become U+FFFD (`TextEncoder`). -/
def utf16Go : Option Nat → List Nat → List Nat
  | none, [] => []
  | some _, [] => [0xFFFD]
  | none, u :: rest =>
    if 0xD800 ≤ u ∧ u ≤ 0xDBFF then utf16Go (some u) rest
    else if 0xDC00 ≤ u ∧ u ≤ 0xDFFF then 0xFFFD :: utf16Go none rest
    else u :: utf16Go none rest
  | some hsur, u :: rest =>
    if 0xDC00 ≤ u ∧ u ≤ 0xDFFF then
      (0x10000 + ((hsur - 0xD800) <<< 10) + (u - 0xDC00)) :: utf16Go none rest
    else if 0xD800 ≤ u ∧ u ≤ 0xDBFF then 0xFFFD :: utf16Go (some u) rest
    else 0xFFFD :: u :: utf16Go none rest

/-- UTF-16 code units to Unicode scalar values. -/
def utf16ToScalars (s : List Nat) : List Nat := utf16Go none s

/-- UTF-8 bytes of one scalar value. -/
def utf8EncodeChar (cp : Nat) : List Nat :=
  if cp < 0x80 then [cp]
  else if cp < 0x800 then [0xC0 + (cp >>> 6), 0x80 + cp % 64]
  else if cp < 0x10000 then
    [0xE0 + (cp >>> 12), 0x80 + (cp >>> 6) % 64, 0x80 + cp % 64]
  else
    [0xF0 + (cp >>> 18), 0x80 + (cp >>> 12) % 64, 0x80 + (cp >>> 6) % 64, 0x80 + cp % 64]

/-- `TextEncoder().encode`. -/
def utf8Encode (s : List Nat) : List Nat :=
  ((utf16ToScalars s).map utf8EncodeChar).flatten

/-- State of a `DataViewWriter`: configuration, the chunk list (invariant:
never empty), the cursor into the last chunk and the total logical length.
Buffers are modelled by value; the `copy`/`copyBuffers` flags only control
aliasing in JS and do not change the byte contents, so the model threads
them without using them. -/
structure DataViewWriter where
  chunkSize : Nat
  copyBuffers : Bool
  littleEndian : Bool
  chunks : List (List Nat)
  offset : Nat
  length : Nat
deriving Repr

namespace DataViewWriter

/-- The current (last) chunk. -/
def lastChunk (w : DataViewWriter) : List Nat := w.chunks.getLastD []

/-- `#left`: room remaining in the last chunk. -/
def left (w : DataViewWriter) : Nat := w.lastChunk.length - w.offset

/-- `#alloc`: push a fresh zeroed chunk and reset the cursor. -/
def alloc (w : DataViewWriter) : DataViewWriter :=
  { w with chunks := w.chunks ++ [List.replicate w.chunkSize 0], offset := 0 }

/-- `#trim`: cut the last chunk down to its logical length. -/
def trim (w : DataViewWriter) : DataViewWriter :=
  if w.lastChunk.length ≠ w.offset then
    { w with chunks := w.chunks.dropLast ++ [w.lastChunk.take w.offset] }
  else w

/-- `Uint8Array.set(data, pos)` on a chunk that has room for it. -/
def setAt (l : List Nat) (pos : Nat) (data : List Nat) : List Nat :=
  l.take pos ++ data ++ l.drop (pos + data.length)

/-- Overwrite part of the last chunk. -/
def setLast (w : DataViewWriter) (pos : Nat) (data : List Nat) : DataViewWriter :=
  { w with chunks := w.chunks.dropLast ++ [setAt w.lastChunk pos data] }

set_option linter.unusedVariables false in
/-- Embedding of `write(buf, copy)` with its three placement branches:
in-place append, zero-copy adoption of a large buffer, or a fresh chunk
(`copy` only controls aliasing, which the by-value model does not track). -/
def write (w : DataViewWriter) (buf : List Nat) (copy : Bool) : DataViewWriter :=
  let len := buf.length
  if len > w.left then
    let w1 := if w.offset = 0 then { w with chunks := w.chunks.dropLast } else w.trim
    if len > w.chunkSize - 8 then
      { w1 with
        chunks := w1.chunks ++ [buf]
        offset := len
        length := w.length + len }
    else
      let w2 := w1.alloc
      { w2.setLast 0 buf with offset := len, length := w.length + len }
  else
    { w.setLast w.offset buf with offset := w.offset + len, length := w.length + len }

/-- `#makeSpace(sz)`. -/
def makeSpace (w : DataViewWriter) (sz : Nat) : DataViewWriter :=
  if w.left < sz then w.trim.alloc else w

/-- One fixed-width typed write after its guard: `#makeSpace`, the
`DataView` setter at the (possibly reset) cursor, then `#advance`. -/
def appendFixed (w : DataViewWriter) (data : List Nat) : DataViewWriter :=
  let w1 := w.makeSpace data.length
  { w1.setLast w1.offset data with
    offset := w1.offset + data.length, length := w1.length + data.length }

/-- Writer `u8`. -/
def u8 (w : DataViewWriter) (n : JSNum) : Except JSError DataViewWriter :=
  if intRangeBad (.num n) 0 0xff then .error .range
  else .ok (w.appendFixed (encBytes false 1 (jsIntVal n)))

/-- Writer `u16`. -/
def u16 (w : DataViewWriter) (n : JSNum) : Except JSError DataViewWriter :=
  if intRangeBad (.num n) 0 0xffff then .error .range
  else .ok (w.appendFixed (encBytes w.littleEndian 2 (jsIntVal n)))

/-- Writer `u32`. -/
def u32 (w : DataViewWriter) (n : JSNum) : Except JSError DataViewWriter :=
  if intRangeBad (.num n) 0 0xffffffff then .error .range
  else .ok (w.appendFixed (encBytes w.littleEndian 4 (jsIntVal n)))

/-- Writer `u64` (`number | bigint`). -/
def u64 (w : DataViewWriter) (n : NumBig) : Except JSError DataViewWriter :=
  if intRangeBad n 0 0xffffffffffffffff then .error .range
  else .ok (w.appendFixed (encBytes w.littleEndian 8 (nbInt n)))

/-- Writer `i8`. -/
def i8 (w : DataViewWriter) (n : JSNum) : Except JSError DataViewWriter :=
  if intRangeBad (.num n) (-0x80) 0x7f then .error .range
  else .ok (w.appendFixed (encBytes false 1 (jsIntVal n)))

/-- Writer `i16`. -/
def i16 (w : DataViewWriter) (n : JSNum) : Except JSError DataViewWriter :=
  if intRangeBad (.num n) (-0x8000) 0x7fff then .error .range
  else .ok (w.appendFixed (encBytes w.littleEndian 2 (jsIntVal n)))

/-- Writer `i32`. -/
def i32 (w : DataViewWriter) (n : JSNum) : Except JSError DataViewWriter :=
  if intRangeBad (.num n) (-0x80000000) 0x7fffffff then .error .range
  else .ok (w.appendFixed (encBytes w.littleEndian 4 (jsIntVal n)))

/-- Writer `i64` (`number | bigint`). -/
def i64 (w : DataViewWriter) (n : NumBig) : Except JSError DataViewWriter :=
  if intRangeBad n (-0x8000000000000000) 0x7fffffffffffffff then .error .range
  else .ok (w.appendFixed (encBytes w.littleEndian 8 (nbInt n)))

/-- Writer `f16`: requires `isF16` (equivalently a successful `halfToUint`),
then writes the 16-bit half pattern. -/
def f16 (w : DataViewWriter) (n : JSNum) : Except JSError DataViewWriter :=
  match halfToUint n with
  | none => .error .range
  | some u => .ok (w.appendFixed (encBytes w.littleEndian 2 u))

/-- Writer `f32`: requires `Object.is(Math.fround(n), n)` (a binary32 bit
pattern exists), then `setFloat32` writes exactly that pattern. -/
def f32 (w : DataViewWriter) (n : JSNum) : Except JSError DataViewWriter :=
  match jsF32Bits n with
  | none => .error .range
  | some b => .ok (w.appendFixed (encBytes w.littleEndian 4 b))

/-- Writer `f64`: `setFloat64` writes the binary64 pattern.  Every JS number
has one; `none` can only arise for `JSNum` rationals that are not doubles
(rounding of such artifacts is not modelled), so the error branch is
unreachable from JS. -/
def f64 (w : DataViewWriter) (n : JSNum) : Except JSError DataViewWriter :=
  match jsF64Bits n with
  | none => .error .range
  | some b => .ok (w.appendFixed (encBytes w.littleEndian 8 b))

/-- Writer `ascii(s)`: every UTF-16 code unit must fit a byte. -/
def ascii (w : DataViewWriter) (s : List Nat) : Except JSError DataViewWriter :=
  if s.all (· ≤ 0xff) then .ok (w.write s false) else .error .range

/-- Writer `utf8(s)`: always succeeds. -/
def utf8 (w : DataViewWriter) (s : List Nat) : Except JSError DataViewWriter :=
  .ok (w.write (utf8Encode s) false)

/-- Writer `clear()`. -/
def clear (w : DataViewWriter) : DataViewWriter :=
  alloc { w with length := 0, chunks := [] }

/-- The private `#read(clear)`: trim, then either hand out the single chunk
or concatenate; `peek` (`clear = false`) also coalesces the chunk list. -/
def readRaw (w : DataViewWriter) (clearArg : Bool) : List Nat × DataViewWriter :=
  let w1 := w.trim
  if w1.chunks.length = 1 then (w1.chunks.getLastD [], w1)
  else
    let ret := w1.chunks.flatten
    (ret, if clearArg then w1 else { w1 with chunks := [ret], offset := ret.length })

/-- Writer `read()`: destructive coalesce. -/
def read (w : DataViewWriter) : List Nat × DataViewWriter :=
  let p := w.readRaw true
  (p.1, p.2.clear)

/-- Writer `peek()`: non-destructive coalesce. -/
def peek (w : DataViewWriter) : List Nat × DataViewWriter :=
  w.readRaw false

/-- Constructor: validates `chunkSize` via `intRange(chunkSize, 8,
Number.MAX_SAFE_INTEGER)` and allocates the first chunk. -/
def mk? (chunkSize : Nat) (copyBuffers littleEndian : Bool) :
    Except JSError DataViewWriter :=
  if chunkSize < 8 ∨ 2 ^ 53 - 1 < chunkSize then .error .range
  else .ok (alloc ⟨chunkSize, copyBuffers, littleEndian, [], 0, 0⟩)

end DataViewWriter

/-- The logical contents of the writer: every chunk but the last in full,
then the last chunk up to the cursor. -/
def wcontent (w : DataViewWriter) : List Nat :=
  w.chunks.dropLast.flatten ++ (w.chunks.getLastD []).take w.offset

/-- Structural invariant of the writer (established by the constructor and
preserved by every operation): a nonempty chunk list, a cursor within the
last chunk, and a length that counts the logical contents. -/
def winv (w : DataViewWriter) : Prop :=
  w.chunks ≠ [] ∧ w.offset ≤ (w.chunks.getLastD []).length ∧
  w.length = w.chunks.dropLast.flatten.length + w.offset

/-- One writer operation. -/
inductive WOp where
  | write (buf : List Nat) (copy : Option Bool) : WOp
  | u8 (n : JSNum) : WOp
  | u16 (n : JSNum) : WOp
  | u32 (n : JSNum) : WOp
  | u64 (n : NumBig) : WOp
  | i8 (n : JSNum) : WOp
  | i16 (n : JSNum) : WOp
  | i32 (n : JSNum) : WOp
  | i64 (n : NumBig) : WOp
  | f16 (n : JSNum) : WOp
  | f32 (n : JSNum) : WOp
  | f64 (n : JSNum) : WOp
  | ascii (s : List Nat) : WOp
  | utf8 (s : List Nat) : WOp

/-- Run one writer operation (an omitted `copy` argument defaults to the
`copyBuffers` option). -/
def applyWOp (w : DataViewWriter) : WOp → Except JSError DataViewWriter
  | .write buf copy => .ok (w.write buf (copy.getD w.copyBuffers))
  | .u8 n => w.u8 n
  | .u16 n => w.u16 n
  | .u32 n => w.u32 n
  | .u64 n => w.u64 n
  | .i8 n => w.i8 n
  | .i16 n => w.i16 n
  | .i32 n => w.i32 n
  | .i64 n => w.i64 n
  | .f16 n => w.f16 n
  | .f32 n => w.f32 n
  | .f64 n => w.f64 n
  | .ascii s => w.ascii s
  | .utf8 s => w.utf8 s

/-- The byte image one operation appends to the logical contents (failing
with the same guard as the operation itself). -/
def opBytes (littleEndian : Bool) : WOp → Except JSError (List Nat)
  | .write buf _ => .ok buf
  | .u8 n => if intRangeBad (.num n) 0 0xff then .error .range
             else .ok (encBytes false 1 (jsIntVal n))
  | .u16 n => if intRangeBad (.num n) 0 0xffff then .error .range
              else .ok (encBytes littleEndian 2 (jsIntVal n))
  | .u32 n => if intRangeBad (.num n) 0 0xffffffff then .error .range
              else .ok (encBytes littleEndian 4 (jsIntVal n))
  | .u64 n => if intRangeBad n 0 0xffffffffffffffff then .error .range
              else .ok (encBytes littleEndian 8 (nbInt n))
  | .i8 n => if intRangeBad (.num n) (-0x80) 0x7f then .error .range
             else .ok (encBytes false 1 (jsIntVal n))
  | .i16 n => if intRangeBad (.num n) (-0x8000) 0x7fff then .error .range
              else .ok (encBytes littleEndian 2 (jsIntVal n))
  | .i32 n => if intRangeBad (.num n) (-0x80000000) 0x7fffffff then .error .range
              else .ok (encBytes littleEndian 4 (jsIntVal n))
  | .i64 n => if intRangeBad n (-0x8000000000000000) 0x7fffffffffffffff then .error .range
              else .ok (encBytes littleEndian 8 (nbInt n))
  | .f16 n => match halfToUint n with
              | none => .error .range
              | some u => .ok (encBytes littleEndian 2 u)
  | .f32 n => match jsF32Bits n with
              | none => .error .range
              | some b => .ok (encBytes littleEndian 4 b)
  | .f64 n => match jsF64Bits n with
              | none => .error .range
              | some b => .ok (encBytes littleEndian 8 b)
  | .ascii s => if s.all (· ≤ 0xff) then .ok s else .error .range
  | .utf8 s => .ok (utf8Encode s)

/-- Run a sequence of writer operations. -/
def runWOps (w : DataViewWriter) : List WOp → Except JSError DataViewWriter
  | [] => .ok w
  | op :: ops =>
    match applyWOp w op with
    | .error e => .error e
    | .ok w1 => runWOps w1 ops

/-- The concatenated byte image of a sequence of operations. -/
def opsBytes (littleEndian : Bool) : List WOp → Except JSError (List Nat)
  | [] => .ok []
  | op :: ops =>
    match opBytes littleEndian op with
    | .error e => .error e
    | .ok b =>
      match opsBytes littleEndian ops with
      | .error e => .error e
      | .ok bs => .ok (b ++ bs)

theorem getLastD_concat' {α : Type} (l : List α) (a d : α) :
    (l ++ [a]).getLastD d = a := by
  induction l with
  | nil => rfl
  | cons x xs ih =>
    cases xs with
    | nil => rfl
    | cons y ys => simpa using ih

theorem chunks_decomp {α : Type} (l : List α) (h : l ≠ []) (d : α) :
    l = l.dropLast ++ [l.getLastD d] := by
  induction l with
  | nil => exact absurd rfl h
  | cons x xs ih =>
    cases xs with
    | nil => rfl
    | cons y ys =>
      have := ih (by simp)
      simpa using this

theorem winv_length (w : DataViewWriter) (h : winv w) :
    w.length = (wcontent w).length := by
  obtain ⟨h1, h2, h3⟩ := h
  rw [wcontent, List.length_append, List.length_take]
  omega

theorem trim_spec (w : DataViewWriter) (hinv : winv w) :
    winv w.trim ∧ wcontent w.trim = wcontent w ∧
    w.trim.chunks.flatten = wcontent w ∧
    (w.trim.chunks.getLastD []).length = w.trim.offset ∧
    w.trim.offset = w.offset ∧ w.trim.length = w.length ∧
    w.trim.chunkSize = w.chunkSize ∧ w.trim.littleEndian = w.littleEndian ∧
    w.trim.copyBuffers = w.copyBuffers := by
  obtain ⟨hne, hoff, hlen⟩ := hinv
  rw [DataViewWriter.trim]
  by_cases hc : (w.lastChunk).length ≠ w.offset
  · rw [if_pos hc]
    have hdrop : (w.chunks.dropLast ++ [w.lastChunk.take w.offset]).dropLast
        = w.chunks.dropLast := by
      rw [List.dropLast_concat]
    have hlast : (w.chunks.dropLast ++ [w.lastChunk.take w.offset]).getLastD []
        = w.lastChunk.take w.offset := getLastD_concat' _ _ _
    have htlen : (w.lastChunk.take w.offset).length = w.offset := by
      rw [List.length_take]
      rw [DataViewWriter.lastChunk]
      omega
    refine ⟨⟨by simp, ?_, ?_⟩, ?_, ?_, ?_, rfl, rfl, rfl, rfl, rfl⟩
    · dsimp only
      rw [hlast, htlen]
    · dsimp only
      rw [hdrop]
      exact hlen
    · rw [wcontent, wcontent]
      dsimp only
      rw [hdrop, hlast, List.take_take, Nat.min_self]
      rfl
    · dsimp only
      rw [List.flatten_append, wcontent]
      simp only [List.flatten_cons, List.flatten_nil, List.append_nil]
      rfl
    · dsimp only
      rw [hlast, htlen]
  · rw [if_neg hc]
    push_neg at hc
    refine ⟨⟨hne, hoff, hlen⟩, rfl, ?_, ?_, rfl, rfl, rfl, rfl, rfl⟩
    · conv_lhs => rw [chunks_decomp w.chunks hne []]
      rw [List.flatten_append, wcontent]
      simp only [List.flatten_cons, List.flatten_nil, List.append_nil]
      congr 1
      rw [← hc, DataViewWriter.lastChunk, List.take_length]
    · rw [DataViewWriter.lastChunk] at hc
      exact hc

theorem encBytes_length (le : Bool) (w : Nat) (x : Int) :
    (encBytes le w x).length = w := by
  cases le <;> simp [encBytes, natBytesBE]

theorem trimAlloc_spec (w : DataViewWriter) (hinv : winv w) :
    winv w.trim.alloc ∧ wcontent w.trim.alloc = wcontent w ∧
    w.trim.alloc.offset = 0 ∧
    (w.trim.alloc.chunks.getLastD []).length = w.chunkSize ∧
    w.trim.alloc.length = w.length ∧ w.trim.alloc.chunkSize = w.chunkSize ∧
    w.trim.alloc.littleEndian = w.littleEndian ∧
    w.trim.alloc.copyBuffers = w.copyBuffers := by
  obtain ⟨T1, T2, T3, T4, T5, T6, T7, T8, T9⟩ := trim_spec w hinv
  rw [DataViewWriter.alloc]
  have hlast : ((w.trim.chunks ++ [List.replicate w.trim.chunkSize 0]).getLastD [])
      = List.replicate w.trim.chunkSize 0 := getLastD_concat' _ _ _
  have hdrop : (w.trim.chunks ++ [List.replicate w.trim.chunkSize 0]).dropLast
      = w.trim.chunks := List.dropLast_concat
  refine ⟨⟨by simp, by simp, ?_⟩, ?_, rfl, ?_, T6, T7, T8, T9⟩
  · dsimp only
    rw [hdrop, T3, ← winv_length w hinv, T6]
    omega
  · rw [wcontent]
    dsimp only
    rw [hdrop, hlast, List.take_zero, List.append_nil, T3]
  · dsimp only
    rw [hlast, List.length_replicate, T7]

theorem append_at (w : DataViewWriter) (data : List Nat) (hinv : winv w)
    (hfit : w.offset + data.length ≤ (w.chunks.getLastD []).length) :
    winv { w.setLast w.offset data with
      offset := w.offset + data.length, length := w.length + data.length } ∧
    wcontent { w.setLast w.offset data with
      offset := w.offset + data.length, length := w.length + data.length }
      = wcontent w ++ data ∧
    (w.setLast w.offset data).chunkSize = w.chunkSize ∧
    (w.setLast w.offset data).littleEndian = w.littleEndian ∧
    (w.setLast w.offset data).copyBuffers = w.copyBuffers := by
  obtain ⟨hne, hoff, hlen⟩ := hinv
  rw [DataViewWriter.setLast]
  have hsl : (DataViewWriter.setAt w.lastChunk w.offset data).length
      = w.lastChunk.length := by
    rw [DataViewWriter.setAt]
    rw [List.length_append, List.length_append, List.length_take, List.length_drop]
    rw [DataViewWriter.lastChunk] at *
    omega
  have hdrop : (w.chunks.dropLast ++ [DataViewWriter.setAt w.lastChunk w.offset data]).dropLast
      = w.chunks.dropLast := List.dropLast_concat
  have hlast : ((w.chunks.dropLast ++ [DataViewWriter.setAt w.lastChunk w.offset data]).getLastD [])
      = DataViewWriter.setAt w.lastChunk w.offset data := getLastD_concat' _ _ _
  have htake : (DataViewWriter.setAt w.lastChunk w.offset data).take (w.offset + data.length)
      = w.lastChunk.take w.offset ++ data := by
    rw [DataViewWriter.setAt, List.append_assoc]
    have hA : (w.lastChunk.take w.offset).length = w.offset := by
      rw [List.length_take, DataViewWriter.lastChunk]
      omega
    rw [show w.offset + data.length = (w.lastChunk.take w.offset ++ data).length by
      rw [List.length_append, hA]]
    rw [← List.append_assoc, List.take_left]
  refine ⟨⟨by simp, ?_, ?_⟩, ?_, rfl, rfl, rfl⟩
  · dsimp only
    rw [hlast, hsl, DataViewWriter.lastChunk]
    exact hfit
  · dsimp only
    rw [hdrop]
    omega
  · rw [wcontent]
    dsimp only
    rw [hdrop, hlast, htake, wcontent, DataViewWriter.lastChunk, List.append_assoc]

theorem adopt_spec (w w1 : DataViewWriter) (buf : List Nat)
    (hf : w1.chunks.flatten = wcontent w) (hwl : w.length = (wcontent w).length) :
    winv { w1 with chunks := w1.chunks ++ [buf], offset := buf.length, length := w.length + buf.length } ∧
    wcontent { w1 with chunks := w1.chunks ++ [buf], offset := buf.length, length := w.length + buf.length } = wcontent w ++ buf := by
  have hdrop : (w1.chunks ++ [buf]).dropLast = w1.chunks := List.dropLast_concat
  have hlast : (w1.chunks ++ [buf]).getLastD [] = buf := getLastD_concat' _ _ _
  refine ⟨⟨by simp, ?_, ?_⟩, ?_⟩
  · dsimp only
    rw [hlast]
  · dsimp only
    rw [hdrop, hf, ← hwl]
  · rw [wcontent]
    dsimp only
    rw [hdrop, hlast, List.take_length, hf]

theorem freshChunk_spec (w w1 : DataViewWriter) (buf : List Nat)
    (hf : w1.chunks.flatten = wcontent w) (hwl : w.length = (wcontent w).length)
    (hbuf : buf.length ≤ w1.chunkSize) :
    winv { (w1.alloc).setLast 0 buf with offset := buf.length, length := w.length + buf.length } ∧
    wcontent { (w1.alloc).setLast 0 buf with offset := buf.length, length := w.length + buf.length } = wcontent w ++ buf := by
  have hwa : (w1.alloc).setLast 0 buf
      = { w1 with chunks := w1.chunks ++ [DataViewWriter.setAt (List.replicate w1.chunkSize 0) 0 buf], offset := 0 } := by
    rw [DataViewWriter.alloc, DataViewWriter.setLast]
    dsimp only [DataViewWriter.lastChunk]
    rw [List.dropLast_concat, getLastD_concat' _ _ []]
  have hset : DataViewWriter.setAt (List.replicate w1.chunkSize 0) 0 buf
      = buf ++ (List.replicate w1.chunkSize 0).drop buf.length := by
    rw [DataViewWriter.setAt, List.take_zero, List.nil_append, Nat.zero_add]
  have hslen : (DataViewWriter.setAt (List.replicate w1.chunkSize 0) 0 buf).length
      = w1.chunkSize := by
    rw [hset, List.length_append, List.length_drop, List.length_replicate]
    omega
  have htake : (DataViewWriter.setAt (List.replicate w1.chunkSize 0) 0 buf).take buf.length
      = buf := by
    rw [hset, List.take_left]
  rw [hwa]
  have hdrop : (w1.chunks ++ [DataViewWriter.setAt (List.replicate w1.chunkSize 0) 0 buf]).dropLast
      = w1.chunks := List.dropLast_concat
  have hlast : (w1.chunks ++ [DataViewWriter.setAt (List.replicate w1.chunkSize 0) 0 buf]).getLastD []
      = DataViewWriter.setAt (List.replicate w1.chunkSize 0) 0 buf := getLastD_concat' _ _ _
  refine ⟨⟨by simp, ?_, ?_⟩, ?_⟩
  · dsimp only
    rw [hlast, hslen]
    exact hbuf
  · dsimp only
    rw [hdrop, hf, ← hwl]
  · rw [wcontent]
    dsimp only
    rw [hdrop, hlast, htake, hf]

theorem write_spec (w : DataViewWriter) (buf : List Nat) (c : Bool)
    (hinv : winv w) (hcs : 8 ≤ w.chunkSize) :
    winv (w.write buf c) ∧ wcontent (w.write buf c) = wcontent w ++ buf ∧
    (w.write buf c).chunkSize = w.chunkSize ∧
    (w.write buf c).littleEndian = w.littleEndian ∧
    (w.write buf c).copyBuffers = w.copyBuffers := by
  have hwl : w.length = (wcontent w).length := winv_length w hinv
  by_cases hgt : buf.length > w.left
  · by_cases h0 : w.offset = 0
    · have hf : ({ w with chunks := w.chunks.dropLast } : DataViewWriter).chunks.flatten
          = wcontent w := by
        rw [wcontent, h0, List.take_zero, List.append_nil]
      by_cases hbig : buf.length > w.chunkSize - 8
      · have hwr : w.write buf c
            = { ({ w with chunks := w.chunks.dropLast } : DataViewWriter) with chunks := ({ w with chunks := w.chunks.dropLast } : DataViewWriter).chunks ++ [buf], offset := buf.length, length := w.length + buf.length } := by
          rw [DataViewWriter.write]
          rw [if_pos hgt, if_pos h0, if_pos hbig]
        rw [hwr]
        obtain ⟨A1, A2⟩ := adopt_spec w _ buf hf hwl
        exact ⟨A1, A2, rfl, rfl, rfl⟩
      · have hwr : w.write buf c
            = { (({ w with chunks := w.chunks.dropLast } : DataViewWriter).alloc).setLast 0 buf with offset := buf.length, length := w.length + buf.length } := by
          rw [DataViewWriter.write]
          rw [if_pos hgt, if_pos h0, if_neg hbig]
        rw [hwr]
        obtain ⟨A1, A2⟩ := freshChunk_spec w _ buf hf hwl (by dsimp only; omega)
        exact ⟨A1, A2, rfl, rfl, rfl⟩
    · obtain ⟨T1, T2, T3, T4, T5, T6, T7, T8, T9⟩ := trim_spec w hinv
      by_cases hbig : buf.length > w.chunkSize - 8
      · have hwr : w.write buf c
            = { w.trim with chunks := w.trim.chunks ++ [buf], offset := buf.length, length := w.length + buf.length } := by
          rw [DataViewWriter.write]
          rw [if_pos hgt, if_neg h0, if_pos hbig]
        rw [hwr]
        obtain ⟨A1, A2⟩ := adopt_spec w _ buf T3 hwl
        exact ⟨A1, A2, T7, T8, T9⟩
      · have hwr : w.write buf c
            = { (w.trim.alloc).setLast 0 buf with offset := buf.length, length := w.length + buf.length } := by
          rw [DataViewWriter.write]
          rw [if_pos hgt, if_neg h0, if_neg hbig]
        rw [hwr]
        obtain ⟨A1, A2⟩ := freshChunk_spec w _ buf T3 hwl (by rw [T7]; omega)
        refine ⟨A1, A2, ?_, ?_, ?_⟩
        · show w.trim.chunkSize = w.chunkSize
          exact T7
        · show w.trim.littleEndian = w.littleEndian
          exact T8
        · show w.trim.copyBuffers = w.copyBuffers
          exact T9
  · have hfit : w.offset + buf.length ≤ (w.chunks.getLastD []).length := by
      rw [DataViewWriter.left, DataViewWriter.lastChunk] at hgt
      have := hinv.2.1
      omega
    obtain ⟨A1, A2, A3, A4, A5⟩ := append_at w buf hinv hfit
    have hwr : w.write buf c
        = { w.setLast w.offset buf with offset := w.offset + buf.length, length := w.length + buf.length } := by
      rw [DataViewWriter.write]
      rw [if_neg hgt]
    rw [hwr]
    exact ⟨A1, A2, A3, A4, A5⟩

theorem appendFixed_spec (w : DataViewWriter) (data : List Nat) (hinv : winv w)
    (hcs : 8 ≤ w.chunkSize) (hd : data.length ≤ 8) :
    winv (w.appendFixed data) ∧ wcontent (w.appendFixed data) = wcontent w ++ data ∧
    (w.appendFixed data).chunkSize = w.chunkSize ∧
    (w.appendFixed data).littleEndian = w.littleEndian ∧
    (w.appendFixed data).copyBuffers = w.copyBuffers := by
  by_cases hms : w.left < data.length
  · obtain ⟨T1, T2, T3, T4, T5, T6, T7, T8⟩ := trimAlloc_spec w hinv
    have hfit : (w.trim.alloc).offset + data.length ≤ ((w.trim.alloc).chunks.getLastD []).length := by
      rw [T3, T4]
      omega
    obtain ⟨A1, A2, A3, A4, A5⟩ := append_at w.trim.alloc data T1 hfit
    have hwr : w.appendFixed data
        = { (w.trim.alloc).setLast (w.trim.alloc).offset data with offset := (w.trim.alloc).offset + data.length, length := (w.trim.alloc).length + data.length } := by
      rw [DataViewWriter.appendFixed, DataViewWriter.makeSpace, if_pos hms]
    rw [hwr]
    refine ⟨A1, ?_, ?_, ?_, ?_⟩
    · rw [A2, T2]
    · rw [show ((w.trim.alloc).setLast (w.trim.alloc).offset data).chunkSize = (w.trim.alloc).chunkSize from rfl, T6]
    · rw [show ((w.trim.alloc).setLast (w.trim.alloc).offset data).littleEndian = (w.trim.alloc).littleEndian from rfl, T7]
    · rw [show ((w.trim.alloc).setLast (w.trim.alloc).offset data).copyBuffers = (w.trim.alloc).copyBuffers from rfl, T8]
  · have hfit : w.offset + data.length ≤ (w.chunks.getLastD []).length := by
      rw [DataViewWriter.left, DataViewWriter.lastChunk] at hms
      have := hinv.2.1
      omega
    obtain ⟨A1, A2, A3, A4, A5⟩ := append_at w data hinv hfit
    have hwr : w.appendFixed data
        = { w.setLast w.offset data with offset := w.offset + data.length, length := w.length + data.length } := by
      rw [DataViewWriter.appendFixed, DataViewWriter.makeSpace, if_neg hms]
    rw [hwr]
    exact ⟨A1, A2, A3, A4, A5⟩

theorem appendFixed_ok (w w2 : DataViewWriter) (data : List Nat) (hinv : winv w)
    (hcs : 8 ≤ w.chunkSize) (hd : data.length ≤ 8) (h : w.appendFixed data = w2) :
    winv w2 ∧ wcontent w2 = wcontent w ++ data ∧ w2.chunkSize = w.chunkSize ∧
    w2.littleEndian = w.littleEndian := by
  obtain ⟨A1, A2, A3, A4, A5⟩ := appendFixed_spec w data hinv hcs hd
  rw [← h]
  exact ⟨A1, A2, A3, A4⟩

theorem readRaw_spec (w : DataViewWriter) (b : Bool) (hinv : winv w) :
    (w.readRaw b).1 = wcontent w := by
  obtain ⟨T1, T2, T3, T4, T5, T6, T7, T8, T9⟩ := trim_spec w hinv
  rw [DataViewWriter.readRaw]
  dsimp only
  by_cases h1 : w.trim.chunks.length = 1
  · rw [if_pos h1]
    obtain ⟨c, hc⟩ := List.length_eq_one.mp h1
    rw [hc] at T3
    simp only [List.flatten_cons, List.flatten_nil, List.append_nil] at T3
    dsimp only
    rw [hc]
    exact T3
  · rw [if_neg h1]
    exact T3

theorem read_fst (w : DataViewWriter) (hinv : winv w) : (w.read).1 = wcontent w := by
  rw [DataViewWriter.read]
  exact readRaw_spec w true hinv

theorem peek_fst (w : DataViewWriter) (hinv : winv w) : (w.peek).1 = wcontent w := by
  rw [DataViewWriter.peek]
  exact readRaw_spec w false hinv

theorem applyWOp_spec (w : DataViewWriter) (op : WOp) (w2 : DataViewWriter)
    (hinv : winv w) (hcs : 8 ≤ w.chunkSize) (h : applyWOp w op = .ok w2) :
    ∃ b, opBytes w.littleEndian op = .ok b ∧ winv w2 ∧
      wcontent w2 = wcontent w ++ b ∧ w2.chunkSize = w.chunkSize ∧
      w2.littleEndian = w.littleEndian := by
  cases op with
  | write buf copy =>
    simp only [applyWOp] at h
    injection h with h
    refine ⟨buf, rfl, ?_⟩
    obtain ⟨A1, A2, A3, A4, A5⟩ := write_spec w buf (copy.getD w.copyBuffers) hinv hcs
    rw [← h]
    exact ⟨A1, A2, A3, A4⟩
  | u8 n =>
    simp only [applyWOp, DataViewWriter.u8] at h
    by_cases hg : intRangeBad (.num n) 0 0xff = true
    · rw [if_pos hg] at h
      exact Except.noConfusion h
    · rw [if_neg hg] at h
      injection h with h
      exact ⟨_, by simp only [opBytes]; rw [if_neg hg],
        appendFixed_ok w w2 _ hinv hcs (by rw [encBytes_length]; omega) h⟩
  | u16 n =>
    simp only [applyWOp, DataViewWriter.u16] at h
    by_cases hg : intRangeBad (.num n) 0 0xffff = true
    · rw [if_pos hg] at h
      exact Except.noConfusion h
    · rw [if_neg hg] at h
      injection h with h
      exact ⟨_, by simp only [opBytes]; rw [if_neg hg],
        appendFixed_ok w w2 _ hinv hcs (by rw [encBytes_length]; omega) h⟩
  | u32 n =>
    simp only [applyWOp, DataViewWriter.u32] at h
    by_cases hg : intRangeBad (.num n) 0 0xffffffff = true
    · rw [if_pos hg] at h
      exact Except.noConfusion h
    · rw [if_neg hg] at h
      injection h with h
      exact ⟨_, by simp only [opBytes]; rw [if_neg hg],
        appendFixed_ok w w2 _ hinv hcs (by rw [encBytes_length]; omega) h⟩
  | u64 n =>
    simp only [applyWOp, DataViewWriter.u64] at h
    by_cases hg : intRangeBad n 0 0xffffffffffffffff = true
    · rw [if_pos hg] at h
      exact Except.noConfusion h
    · rw [if_neg hg] at h
      injection h with h
      exact ⟨_, by simp only [opBytes]; rw [if_neg hg],
        appendFixed_ok w w2 _ hinv hcs (by rw [encBytes_length]) h⟩
  | i8 n =>
    simp only [applyWOp, DataViewWriter.i8] at h
    by_cases hg : intRangeBad (.num n) (-0x80) 0x7f = true
    · rw [if_pos hg] at h
      exact Except.noConfusion h
    · rw [if_neg hg] at h
      injection h with h
      exact ⟨_, by simp only [opBytes]; rw [if_neg hg],
        appendFixed_ok w w2 _ hinv hcs (by rw [encBytes_length]; omega) h⟩
  | i16 n =>
    simp only [applyWOp, DataViewWriter.i16] at h
    by_cases hg : intRangeBad (.num n) (-0x8000) 0x7fff = true
    · rw [if_pos hg] at h
      exact Except.noConfusion h
    · rw [if_neg hg] at h
      injection h with h
      exact ⟨_, by simp only [opBytes]; rw [if_neg hg],
        appendFixed_ok w w2 _ hinv hcs (by rw [encBytes_length]; omega) h⟩
  | i32 n =>
    simp only [applyWOp, DataViewWriter.i32] at h
    by_cases hg : intRangeBad (.num n) (-0x80000000) 0x7fffffff = true
    · rw [if_pos hg] at h
      exact Except.noConfusion h
    · rw [if_neg hg] at h
      injection h with h
      exact ⟨_, by simp only [opBytes]; rw [if_neg hg],
        appendFixed_ok w w2 _ hinv hcs (by rw [encBytes_length]; omega) h⟩
  | i64 n =>
    simp only [applyWOp, DataViewWriter.i64] at h
    by_cases hg : intRangeBad n (-0x8000000000000000) 0x7fffffffffffffff = true
    · rw [if_pos hg] at h
      exact Except.noConfusion h
    · rw [if_neg hg] at h
      injection h with h
      exact ⟨_, by simp only [opBytes]; rw [if_neg hg],
        appendFixed_ok w w2 _ hinv hcs (by rw [encBytes_length]) h⟩
  | f16 n =>
    simp only [applyWOp, DataViewWriter.f16] at h
    cases hu : halfToUint n with
    | none =>
      rw [hu] at h
      exact Except.noConfusion h
    | some u =>
      rw [hu] at h
      injection h with h
      exact ⟨_, by simp only [opBytes]; rw [hu],
        appendFixed_ok w w2 _ hinv hcs (by rw [encBytes_length]; omega) h⟩
  | f32 n =>
    simp only [applyWOp, DataViewWriter.f32] at h
    cases hu : jsF32Bits n with
    | none =>
      rw [hu] at h
      exact Except.noConfusion h
    | some u =>
      rw [hu] at h
      injection h with h
      exact ⟨_, by simp only [opBytes]; rw [hu],
        appendFixed_ok w w2 _ hinv hcs (by rw [encBytes_length]; omega) h⟩
  | f64 n =>
    simp only [applyWOp, DataViewWriter.f64] at h
    cases hu : jsF64Bits n with
    | none =>
      rw [hu] at h
      exact Except.noConfusion h
    | some u =>
      rw [hu] at h
      injection h with h
      exact ⟨_, by simp only [opBytes]; rw [hu],
        appendFixed_ok w w2 _ hinv hcs (by rw [encBytes_length]) h⟩
  | ascii s =>
    simp only [applyWOp, DataViewWriter.ascii] at h
    by_cases hg : s.all (fun x => decide (x ≤ 0xff)) = true
    · rw [if_pos hg] at h
      injection h with h
      refine ⟨s, by simp only [opBytes]; rw [if_pos hg], ?_⟩
      obtain ⟨A1, A2, A3, A4, A5⟩ := write_spec w s false hinv hcs
      rw [← h]
      exact ⟨A1, A2, A3, A4⟩
    · rw [if_neg hg] at h
      exact Except.noConfusion h
  | utf8 s =>
    simp only [applyWOp, DataViewWriter.utf8] at h
    injection h with h
    refine ⟨utf8Encode s, by simp only [opBytes], ?_⟩
    obtain ⟨A1, A2, A3, A4, A5⟩ := write_spec w (utf8Encode s) false hinv hcs
    rw [← h]
    exact ⟨A1, A2, A3, A4⟩

theorem runWOps_spec (ops : List WOp) : ∀ w w2 : DataViewWriter, winv w → 8 ≤ w.chunkSize →
    runWOps w ops = .ok w2 →
    ∃ bs, opsBytes w.littleEndian ops = .ok bs ∧ winv w2 ∧
      wcontent w2 = wcontent w ++ bs ∧ w2.chunkSize = w.chunkSize ∧
      w2.littleEndian = w.littleEndian := by
  induction ops with
  | nil =>
    intro w w2 hinv hcs h
    simp only [runWOps] at h
    injection h with h
    refine ⟨[], rfl, ?_, ?_, ?_, ?_⟩
    · rw [← h]
      exact hinv
    · rw [← h, List.append_nil]
    · rw [← h]
    · rw [← h]
  | cons op ops ih =>
    intro w w2 hinv hcs h
    simp only [runWOps] at h
    cases ha : applyWOp w op with
    | error e =>
      rw [ha] at h
      exact Except.noConfusion h
    | ok w1 =>
      rw [ha] at h
      dsimp only at h
      obtain ⟨b, hb, hinv1, hc1, hcs1, hle1⟩ := applyWOp_spec w op w1 hinv hcs ha
      obtain ⟨bs, hbs, hinv2, hc2, hcs2, hle2⟩ := ih w1 w2 hinv1 (by rw [hcs1]; exact hcs) h
      rw [hle1] at hbs
      refine ⟨b ++ bs, ?_, hinv2, ?_, ?_, ?_⟩
      · simp only [opsBytes]
        rw [hb, hbs]
      · rw [hc2, hc1, List.append_assoc]
      · rw [hcs2, hcs1]
      · rw [hle2, hle1]

theorem mk_winv (cs : Nat) (c l : Bool) (w0 : DataViewWriter)
    (h : DataViewWriter.mk? cs c l = .ok w0) :
    winv w0 ∧ wcontent w0 = [] ∧ 8 ≤ w0.chunkSize ∧ w0.littleEndian = l := by
  rw [DataViewWriter.mk?] at h
  by_cases hg : cs < 8 ∨ 2 ^ 53 - 1 < cs
  · rw [if_pos hg] at h
    exact Except.noConfusion h
  · rw [if_neg hg] at h
    injection h with h
    push_neg at hg
    rw [← h]
    refine ⟨⟨by simp [DataViewWriter.alloc], by simp [DataViewWriter.alloc], ?_⟩, ?_, ?_, rfl⟩
    · simp [DataViewWriter.alloc]
    · simp [wcontent, DataViewWriter.alloc]
    · exact hg.1

theorem clear_fresh (w : DataViewWriter) :
    winv w.clear ∧ wcontent w.clear = [] ∧ w.clear.chunkSize = w.chunkSize ∧
    w.clear.littleEndian = w.littleEndian := by
  refine ⟨⟨by simp [DataViewWriter.clear, DataViewWriter.alloc], ?_, ?_⟩, ?_, rfl, rfl⟩
  · simp [DataViewWriter.clear, DataViewWriter.alloc]
  · simp [DataViewWriter.clear, DataViewWriter.alloc]
  · simp [wcontent, DataViewWriter.clear, DataViewWriter.alloc]

/-- C6: Writer chunk invariant.  (1) From any writer state whose logical
contents are empty (as established by the constructor, `clear()` and the
state left by `read()`), any sequence of writer operations that succeeds
yields, through `read()` as well as `peek()`, exactly the concatenation in
call order of the byte encodings of the written values, regardless of how
the data was split across chunks.  (2) The constructor produces such a
state with the chunk capacity it validated (≥ 8).  (3) `clear()` and the
state after `read()` restore such a state.  (4) The worked example: with
chunk capacity 8, writing the 9 UTF-8 bytes of "123456789" and then 3 raw
bytes uses two chunks internally but `read()` returns the coalesced
12-byte concatenation. -/
theorem C6_writer_chunk_invariant :
    (∀ (w0 : DataViewWriter) (ops : List WOp) (w1 : DataViewWriter),
      winv w0 → wcontent w0 = [] → 8 ≤ w0.chunkSize →
      runWOps w0 ops = .ok w1 →
      ∃ bs, opsBytes w0.littleEndian ops = .ok bs ∧
        ((w1.read).1 = bs ∧ (w1.peek).1 = bs)) ∧
    (∀ (cs : Nat) (c l : Bool) (w0 : DataViewWriter),
      DataViewWriter.mk? cs c l = .ok w0 →
      winv w0 ∧ wcontent w0 = [] ∧ 8 ≤ w0.chunkSize ∧ w0.littleEndian = l) ∧
    (∀ w : DataViewWriter,
      winv w.clear ∧ wcontent w.clear = [] ∧ wcontent (w.read).2 = []) ∧
    (∃ w1, runWOps (DataViewWriter.alloc ⟨8, false, false, [], 0, 0⟩)
        [.utf8 [49, 50, 51, 52, 53, 54, 55, 56, 57], .write [1, 2, 3] none] = .ok w1 ∧
      (w1.read).1 = [49, 50, 51, 52, 53, 54, 55, 56, 57, 1, 2, 3] ∧
      w1.chunks.length = 2) := by
  refine ⟨?_, mk_winv, ?_, ?_⟩
  · intro w0 ops w1 hinv hc0 hcs h
    obtain ⟨bs, hbs, hinv1, hc1, _, _⟩ := runWOps_spec ops w0 w1 hinv hcs h
    refine ⟨bs, hbs, ?_, ?_⟩
    · rw [read_fst w1 hinv1, hc1, hc0, List.nil_append]
    · rw [peek_fst w1 hinv1, hc1, hc0, List.nil_append]
  · intro w
    obtain ⟨H1, H2, _, _⟩ := clear_fresh w
    refine ⟨H1, H2, ?_⟩
    rw [DataViewWriter.read]
    exact (clear_fresh _).2.1
  · exact ⟨_, rfl, by decide, by decide⟩

theorem C6_writer_chunk_invariant_witness :
    ∃ bs, opsBytes false [WOp.write [7] none] = .ok bs ∧
      (((⟨8, false, false, [[7, 0, 0, 0, 0, 0, 0, 0]], 1, 1⟩ : DataViewWriter).read).1 = bs ∧
       ((⟨8, false, false, [[7, 0, 0, 0, 0, 0, 0, 0]], 1, 1⟩ : DataViewWriter).peek).1 = bs) :=
  C6_writer_chunk_invariant.1 (DataViewWriter.alloc ⟨8, false, false, [], 0, 0⟩)
    [WOp.write [7] none] ⟨8, false, false, [[7, 0, 0, 0, 0, 0, 0, 0]], 1, 1⟩
    ⟨by decide, by decide, by decide⟩ rfl (by decide) rfl

/-- C10: number/bigint asymmetry of the 64-bit writes.  A `number` argument
that is not a safe integer is rejected with a RangeError by both `u64` and
`i64`, even when its value lies inside the 64-bit range; the `bigint` of
the same value inside `[0, 2^64-1]` (for `u64`) or `[-2^63, 2^63-1]` (for
`i64`) is accepted and its 8-byte twos-complement encoding is appended to
the logical contents. -/
theorem C10_u64_i64_number_bigint_asymmetry :
    ∀ (w : DataViewWriter) (v : JSNum) (b : Int),
      (jsIsSafeInteger v = false →
        w.u64 (.num v) = .error .range ∧ w.i64 (.num v) = .error .range) ∧
      (0 ≤ b → b ≤ 2 ^ 64 - 1 →
        w.u64 (.big b) = .ok (w.appendFixed (encBytes w.littleEndian 8 b))) ∧
      (-(2 ^ 63) ≤ b → b ≤ 2 ^ 63 - 1 →
        w.i64 (.big b) = .ok (w.appendFixed (encBytes w.littleEndian 8 b))) ∧
      (winv w → 8 ≤ w.chunkSize → ∀ w2, w.u64 (.big b) = .ok w2 →
        wcontent w2 = wcontent w ++ encBytes w.littleEndian 8 b ∧
        (wcontent w2).length = (wcontent w).length + 8) := by
  intro w v b
  refine ⟨?_, ?_, ?_, ?_⟩
  · intro hns
    constructor
    · simp [DataViewWriter.u64, intRangeBad, hns]
    · simp [DataViewWriter.i64, intRangeBad, hns]
  · intro h0 h1
    have hg : ¬(intRangeBad (.big b) 0 0xffffffffffffffff = true) := by
      simp only [intRangeBad, Bool.or_eq_true, decide_eq_true_eq]
      omega
    rw [DataViewWriter.u64, if_neg hg]
    rfl
  · intro h0 h1
    have hg : ¬(intRangeBad (.big b) (-0x8000000000000000) 0x7fffffffffffffff = true) := by
      simp only [intRangeBad, Bool.or_eq_true, decide_eq_true_eq]
      omega
    rw [DataViewWriter.i64, if_neg hg]
    rfl
  · intro hinv hcs w2 h
    rw [DataViewWriter.u64] at h
    by_cases hg : intRangeBad (.big b) 0 0xffffffffffffffff = true
    · rw [if_pos hg] at h
      exact Except.noConfusion h
    · rw [if_neg hg] at h
      injection h with h
      simp only [nbInt] at h
      obtain ⟨A1, A2, A3, A4, A5⟩ := appendFixed_spec w (encBytes w.littleEndian 8 b)
        hinv hcs (by rw [encBytes_length])
      rw [← h]
      refine ⟨A2, ?_⟩
      rw [A2, List.length_append, encBytes_length]

theorem C10_u64_i64_number_bigint_asymmetry_witness :
    jsIsSafeInteger (.fin false (mkRat (2 ^ 53) 1)) = false ∧
    ((⟨8, false, false, [], 0, 0⟩ : DataViewWriter)).u64
        (.num (.fin false (mkRat (2 ^ 53) 1))) = .error .range ∧
    ((⟨8, false, false, [], 0, 0⟩ : DataViewWriter)).u64 (.big (2 ^ 53))
      = .ok (((⟨8, false, false, [], 0, 0⟩ : DataViewWriter)).appendFixed
          (encBytes false 8 (2 ^ 53))) := by
  refine ⟨by decide, ?_, ?_⟩
  · exact ((C10_u64_i64_number_bigint_asymmetry (⟨8, false, false, [], 0, 0⟩ : DataViewWriter)
      (.fin false (mkRat (2 ^ 53) 1)) (2 ^ 53)).1 (by decide)).1
  · exact (C10_u64_i64_number_bigint_asymmetry (⟨8, false, false, [], 0, 0⟩ : DataViewWriter)
      (.fin false (mkRat (2 ^ 53) 1)) (2 ^ 53)).2.1 (by decide) (by decide)

/-! ### The field-capturing `Packet` (`src/packet.ts`) -/

/-- `ToInt32` of an integer. -/
def toInt32 (x : Int) : Int := (x + 2 ^ 31).emod (2 ^ 32) - 2 ^ 31

/-- `ToInt32` of a JS number: NaN and the infinities go to 0, a finite
value is truncated toward zero and wrapped. -/
def jsToInt32 : JSNum → Int
  | .nan => 0
  | .inf _ => 0
  | .fin neg q => toInt32 (if neg then -(q.num / (q.den : Int)) else q.num / (q.den : Int))

/-- JS `>>` on numbers: both operands through `ToInt32`, the count masked to
5 bits, then an arithmetic shift. -/
def jsShr (x : Int) (k : Nat) : Int := (toInt32 x).fdiv (2 ^ (k % 32))

/-- JS `<<` on numbers. -/
def jsShl (x : Int) (k : Nat) : Int := toInt32 (toInt32 x * 2 ^ (k % 32))

/-- JS `&` on numbers: bitwise AND of the two `ToInt32` images. -/
def jsAnd (x y : Int) : Int :=
  toInt32 ((((toInt32 x).emod (2 ^ 32)).toNat &&& ((toInt32 y).emod (2 ^ 32)).toNat : Nat) : Int)

/-- BigInt `>>`: exact arithmetic shift; a negative count shifts left. -/
def bigShr (b k : Int) : Int :=
  if 0 ≤ k then b.fdiv (2 ^ k.toNat) else b * 2 ^ (-k).toNat

/-- `Number(i)` for an integer.  `bits` documents a 53-bit cap on extracted
fields, inside which the conversion is exact; binary64 rounding above that
documented domain is not modelled. -/
def jsNumOfInt (i : Int) : JSNum := .fin (decide (i < 0)) ((i.natAbs : ℚ))

/-- `start`/`finish` normalization of `bits`: the larger index becomes the
start (`if (finish > start) [start, finish] = [finish, start]`). -/
def normPair {α : Type} [LinearOrder α] (start f : α) : α × α :=
  if f > start then (f, start) else (start, f)

/-- The start/finish or flag-set part of a `bits` descriptor, in its number
(`NumStartFinish`/`FlagSet`) and bigint (`BigStartFinish`/`BigFlagSet`)
forms. -/
inductive SFDesc where
  | nsf (start : Nat) (finish : Option Nat) : SFDesc
  | bsf (start : Int) (finish : Option Int) : SFDesc
  | nset (flags : List (String × Nat)) : SFDesc
  | bset (flags : List (String × Int)) : SFDesc

/-- A `bits` descriptor: the source field (`fromTemp` wins over `from`),
the destination field (`toTemp` wins over `to`), the bit selection, and the
optional converter. -/
structure BitsDesc where
  fromTemp : Option String
  fromName : String
  toTemp : Option String
  toName : String
  sf : SFDesc
  conv : Option (Value → String → Bool → Value)

/-- State of a `Packet`: the wrapped reader and the `#packet`/`#temp`
records (assignment is modelled by prepending, so the most recent binding
wins on lookup). -/
structure Packet where
  r : DataViewReader
  packet : List (String × Value)
  temp : List (String × Value)

namespace Packet

/-- Record field lookup. -/
def getF : List (String × Value) → String → Option Value
  | [], _ => none
  | (k, v) :: rest, name => if k = name then some v else getF rest name

/-- `#store`: skipped entirely when the reader is already truncated;
otherwise runs the optional converter and assigns the result to `temp` or
`packet`. -/
def store (p : Packet) (name : String) (v : Value) (tmp : Bool)
    (conv : Option (Value → String → Bool → Value)) : Packet :=
  if p.r.truncated then p
  else
    match conv with
    | none =>
      if tmp then { p with temp := (name, v) :: p.temp }
      else { p with packet := (name, v) :: p.packet }
    | some f =>
      if tmp then { p with temp := (name, f v name tmp) :: p.temp }
      else { p with packet := (name, f v name tmp) :: p.packet }

/-- The source field of `bits` through `ToInt32`, for the number-index
paths: a missing field (`undefined`) and the numeric shapes coerce; a
bigint raises the mixed-types TypeError that `field >> finish` throws.
String and composite coercions are outside the modelled domain. -/
def fieldToInt32 : Option Value → Except JSError Int
  | none => .ok 0
  | some (.num v) => .ok (jsToInt32 v)
  | some (.bool b) => .ok (if b then 1 else 0)
  | some _ => .error .typeMix

/-- The source field for the bigint-index paths: only a bigint survives —
for every other field `one` keeps the JS number type and the mixed
`start - finish + one` arithmetic throws a TypeError. -/
def fieldToBig : Option Value → Except JSError Int
  | some (.big b) => .ok b
  | _ => .error .typeMix

/-- `bits(desc)`: look up the source field; return silently when tolerant
truncation has left it unset; otherwise extract the selected bits.  Number
fields use 32-bit JS shift semantics, bigint fields exact integer shifts
masked to the selected width; `start`/`finish` are normalized so the larger
index is the start; a single bit stores a boolean, a flag set stores the
list of set flags.  The final assignment goes through `#store`, so an
already-truncated reader suppresses it. -/
def bits (p : Packet) (d : BitsDesc) : Except JSError Packet :=
  let field? := match d.fromTemp with
    | some n => getF p.temp n
    | none => getF p.packet d.fromName
  if p.r.allowTruncation ∧ field?.isNone then .ok p
  else
    match d.sf with
    | .nsf start finish =>
      match fieldToInt32 field? with
      | .error e => .error e
      | .ok f32v =>
        let nf := normPair start (finish.getD start)
        let diff := nf.1 - nf.2 + 1
        let tmp := jsAnd (jsShr f32v nf.2) (jsShl 1 diff - 1)
        .ok (store p (d.toTemp.getD d.toName)
          (if nf.1 = nf.2 then Value.bool (decide (tmp ≠ 0)) else Value.num (jsNumOfInt tmp))
          d.toTemp.isSome d.conv)
    | .bsf start finish =>
      match fieldToBig field? with
      | .error e => .error e
      | .ok b =>
        let nf := normPair start (finish.getD start)
        let diff := nf.1 - nf.2 + 1
        let tmpb := (bigShr b nf.2).emod (2 ^ diff.toNat)
        .ok (store p (d.toTemp.getD d.toName)
          (if nf.1 = nf.2 then Value.bool (decide (tmpb ≠ 0)) else Value.num (jsNumOfInt tmpb))
          d.toTemp.isSome d.conv)
    | .nset flags =>
      match fieldToInt32 field? with
      | .error e => .error e
      | .ok f32v =>
        .ok (store p (d.toTemp.getD d.toName)
          (.flags ((flags.filter (fun kv => decide (jsAnd (jsShr f32v kv.2) 1 ≠ 0))).map
            (fun kv => kv.1)))
          d.toTemp.isSome d.conv)
    | .bset flags =>
      match fieldToBig field? with
      | .error e => .error e
      | .ok b =>
        .ok (store p (d.toTemp.getD d.toName)
          (.flags ((flags.filter (fun kv => decide ((bigShr b kv.2).emod 2 ≠ 0))).map
            (fun kv => kv.1)))
          d.toTemp.isSome d.conv)

end Packet

/-- One `Packet` storing operation.  The typed reads share the reader
operation datatype; `times`/`while` callbacks are arbitrary reader
transformers; the `while` loop carries explicit fuel — it exits immediately
once the reader is truncated, so every terminating JS execution is some
fuel instance.  (`maybe` runs arbitrary packet code and is not a storing
operation.) -/
inductive POp where
  | read (op : ROp) (name : String) (tmp : Bool)
      (conv : Option (Value → String → Bool → Value)) : POp
  | unused (name : String) (tmp : Bool)
      (conv : Option (Value → String → Bool → Value)) : POp
  | constant (name : String) (v : Value) (tmp : Bool)
      (conv : Option (Value → String → Bool → Value)) : POp
  | times (name : String) (num : Nat)
      (fn : Nat → DataViewReader → Except JSError Value × DataViewReader)
      (tmp : Bool) (conv : Option (Value → String → Bool → Value)) : POp
  | whileOp (name : String) (fuel : Nat)
      (keepGoing : Nat → DataViewReader → Bool)
      (rd : Nat → DataViewReader → Except JSError Value × DataViewReader)
      (tmp : Bool) (conv : Option (Value → String → Bool → Value)) : POp
  | bits (d : BitsDesc) : POp

/-- The `while` loop of the Packet:
`while (!this.#r.truncated && keepGoing(it, r)) res.push(read(it++, r))`,
with the remaining iteration count as fuel; a throwing `read` aborts the
loop but its reader mutations persist. -/
def pwhile (keepGoing : Nat → DataViewReader → Bool)
    (rd : Nat → DataViewReader → Except JSError Value × DataViewReader) :
    Nat → Nat → DataViewReader → Except JSError (List Value) × DataViewReader
  | _, 0, r => (.ok [], r)
  | it, fuel + 1, r =>
    if !r.truncated && keepGoing it r then
      match rd it r with
      | (.error e, r1) => (.error e, r1)
      | (.ok v, r1) =>
        match pwhile keepGoing rd (it + 1) fuel r1 with
        | (.error e, r2) => (.error e, r2)
        | (.ok vs, r2) => (.ok (v :: vs), r2)
    else (.ok [], r)

/-- Run one storing operation.  The argument (a reader call) is evaluated
first — its reader mutations persist even when the following `#store` is
skipped — then `#store` assigns unless the reader is truncated.  A thrown
error propagates with the packet state it left behind. -/
def papply (p : Packet) : POp → Except JSError Packet × Packet
  | .read op name tmp conv =>
    match runROp p.r op with
    | (.error e, r1) => (.error e, { p with r := r1 })
    | (.ok v, r1) =>
      (.ok (Packet.store { p with r := r1 } name v tmp conv),
       Packet.store { p with r := r1 } name v tmp conv)
  | .unused name tmp conv =>
    (.ok (Packet.store p name (.bytes p.r.unused) tmp conv),
     Packet.store p name (.bytes p.r.unused) tmp conv)
  | .constant name v tmp conv =>
    (.ok (Packet.store p name v tmp conv), Packet.store p name v tmp conv)
  | .times name num fn tmp conv =>
    match p.r.times num fn with
    | (.error e, r1) => (.error e, { p with r := r1 })
    | (.ok vs, r1) =>
      (.ok (Packet.store { p with r := r1 } name (.arr vs) tmp conv),
       Packet.store { p with r := r1 } name (.arr vs) tmp conv)
  | .whileOp name fuel kg rd tmp conv =>
    match pwhile kg rd 0 fuel p.r with
    | (.error e, r1) => (.error e, { p with r := r1 })
    | (.ok vs, r1) =>
      (.ok (Packet.store { p with r := r1 } name (.arr vs) tmp conv),
       Packet.store { p with r := r1 } name (.arr vs) tmp conv)
  | .bits d =>
    match Packet.bits p d with
    | .error e => (.error e, p)
    | .ok p2 => (.ok p2, p2)

theorem normPair_comm {α : Type} [LinearOrder α] (a b : α) : normPair a b = normPair b a := by
  rw [normPair, normPair]
  rcases lt_trichotomy a b with h | h | h
  · rw [if_pos h, if_neg (lt_asymm h)]
  · subst h
    rfl
  · rw [if_neg (lt_asymm h), if_pos h]

/-- C7: bit-extraction symmetry.  For every packet state, source and
destination fields and converter, and every pair of bit indices `a` and
`b` (numbers for a number field, bigints for a bigint field),
`bits({start: a, finish: b})` computes the same value, stores it the same
way and leaves the packet in the same state — including every error case —
as `bits({start: b, finish: a})`: the larger index is always treated as
the start. -/
theorem C7_bits_start_finish_symmetry :
    ∀ (p : Packet) (ft : Option String) (fname tname : String) (tt : Option String)
      (conv : Option (Value → String → Bool → Value)),
      (∀ a b : Nat,
        Packet.bits p ⟨ft, fname, tt, tname, .nsf a (some b), conv⟩ =
          Packet.bits p ⟨ft, fname, tt, tname, .nsf b (some a), conv⟩) ∧
      (∀ a b : Int,
        Packet.bits p ⟨ft, fname, tt, tname, .bsf a (some b), conv⟩ =
          Packet.bits p ⟨ft, fname, tt, tname, .bsf b (some a), conv⟩) ∧
      (∀ a b : Nat,
        papply p (.bits ⟨ft, fname, tt, tname, .nsf a (some b), conv⟩) =
          papply p (.bits ⟨ft, fname, tt, tname, .nsf b (some a), conv⟩)) ∧
      (∀ a b : Int,
        papply p (.bits ⟨ft, fname, tt, tname, .bsf a (some b), conv⟩) =
          papply p (.bits ⟨ft, fname, tt, tname, .bsf b (some a), conv⟩)) := by
  intro p ft fname tname tt conv
  have h1 : ∀ a b : Nat,
      Packet.bits p ⟨ft, fname, tt, tname, .nsf a (some b), conv⟩ =
        Packet.bits p ⟨ft, fname, tt, tname, .nsf b (some a), conv⟩ := by
    intro a b
    simp only [Packet.bits, Option.getD_some]
    simp only [normPair_comm a b]
  have h2 : ∀ a b : Int,
      Packet.bits p ⟨ft, fname, tt, tname, .bsf a (some b), conv⟩ =
        Packet.bits p ⟨ft, fname, tt, tname, .bsf b (some a), conv⟩ := by
    intro a b
    simp only [Packet.bits, Option.getD_some]
    simp only [normPair_comm a b]
  refine ⟨h1, h2, ?_, ?_⟩
  · intro a b
    simp only [papply]
    rw [h1 a b]
  · intro a b
    simp only [papply]
    rw [h2 a b]

theorem store_of_truncd (p : Packet) (name : String) (v : Value) (tmp : Bool)
    (conv : Option (Value → String → Bool → Value)) (h : p.r.truncated = true) :
    Packet.store p name v tmp conv = p := by
  rw [Packet.store.eq_def, if_pos h]

theorem runROp_truncd (r : DataViewReader) (op : ROp) (h : r.truncated = true) :
    runROp r op = (.ok op.sentinel, r) := by
  cases op with
  | bytes n =>
    rw [runROp, DataViewReader.bytes, DataViewReader.bytesRead_of_truncated r n h]
    rfl
  | ascii n =>
    rw [runROp, DataViewReader.ascii, DataViewReader.bytesRead_of_truncated r n h]
    rfl
  | utf8 n =>
    rw [runROp, DataViewReader.utf8, DataViewReader.bytesRead_of_truncated r n h]
    rfl
  | _ => exact DataViewReader.fixedRead_of_truncated r _ _ _ _ h

theorem times_of_truncd (r : DataViewReader) (num : Nat)
    (fn : Nat → DataViewReader → Except JSError Value × DataViewReader)
    (h : r.truncated = true) :
    DataViewReader.times r num fn = (.ok [], r) := by
  cases num with
  | zero => rfl
  | succ n =>
    rw [DataViewReader.times]
    simp only [DataViewReader.timesAux]
    rw [if_pos h]

theorem pwhile_of_truncd (kg : Nat → DataViewReader → Bool)
    (rd : Nat → DataViewReader → Except JSError Value × DataViewReader)
    (it fuel : Nat) (r : DataViewReader) (h : r.truncated = true) :
    pwhile kg rd it fuel r = (.ok [], r) := by
  cases fuel with
  | zero => rfl
  | succ n => simp [pwhile, h]

theorem fieldToInt32_error (o : Option Value) (e : JSError)
    (h : Packet.fieldToInt32 o = .error e) : e = .typeMix := by
  match o, h with
  | none, h => exact Except.noConfusion h
  | some (.num v), h => exact Except.noConfusion h
  | some (.bool b), h => exact Except.noConfusion h
  | some (.big b), h => injection h with h; exact h.symm
  | some (.str s), h => injection h with h; exact h.symm
  | some (.bytes l), h => injection h with h; exact h.symm
  | some (.arr l), h => injection h with h; exact h.symm
  | some (.flags l), h => injection h with h; exact h.symm

theorem fieldToBig_error (o : Option Value) (e : JSError)
    (h : Packet.fieldToBig o = .error e) : e = .typeMix := by
  match o, h with
  | none, h => injection h with h; exact h.symm
  | some (.num v), h => injection h with h; exact h.symm
  | some (.bool b), h => injection h with h; exact h.symm
  | some (.big b), h => exact Except.noConfusion h
  | some (.str s), h => injection h with h; exact h.symm
  | some (.bytes l), h => injection h with h; exact h.symm
  | some (.arr l), h => injection h with h; exact h.symm
  | some (.flags l), h => injection h with h; exact h.symm

theorem bits_of_truncd (p : Packet) (d : BitsDesc) (h : p.r.truncated = true) :
    Packet.bits p d = .ok p ∨ Packet.bits p d = .error .typeMix := by
  simp only [Packet.bits]
  by_cases hA : p.r.allowTruncation ∧ (match d.fromTemp with
      | some n => Packet.getF p.temp n
      | none => Packet.getF p.packet d.fromName).isNone
  · rw [if_pos hA]
    exact Or.inl rfl
  · rw [if_neg hA]
    rcases hsf : d.sf with ⟨start, finish⟩ | ⟨start, finish⟩ | flags | flags
    · cases hf : Packet.fieldToInt32 (match d.fromTemp with
          | some n => Packet.getF p.temp n
          | none => Packet.getF p.packet d.fromName) with
      | error e =>
        right
        dsimp only
        rw [fieldToInt32_error _ _ hf]
      | ok v =>
        left
        dsimp only
        rw [store_of_truncd _ _ _ _ _ h]
    · cases hf : Packet.fieldToBig (match d.fromTemp with
          | some n => Packet.getF p.temp n
          | none => Packet.getF p.packet d.fromName) with
      | error e =>
        right
        dsimp only
        rw [fieldToBig_error _ _ hf]
      | ok v =>
        left
        dsimp only
        rw [store_of_truncd _ _ _ _ _ h]
    · cases hf : Packet.fieldToInt32 (match d.fromTemp with
          | some n => Packet.getF p.temp n
          | none => Packet.getF p.packet d.fromName) with
      | error e =>
        right
        dsimp only
        rw [fieldToInt32_error _ _ hf]
      | ok v =>
        left
        dsimp only
        rw [store_of_truncd _ _ _ _ _ h]
    · cases hf : Packet.fieldToBig (match d.fromTemp with
          | some n => Packet.getF p.temp n
          | none => Packet.getF p.packet d.fromName) with
      | error e =>
        right
        dsimp only
        rw [fieldToBig_error _ _ hf]
      | ok v =>
        left
        dsimp only
        rw [store_of_truncd _ _ _ _ _ h]

/-- C8 (amended): once the wrapped reader is truncated, every Packet
storing operation leaves the output record, the temp record AND the reader
— its cursor in particular — completely unchanged.  The typed reads,
`unused`, `constant`, `times` and `while` all complete normally as exact
no-ops; `bits` either completes as an exact no-op or throws the
mixed-types TypeError before storing, also without changing any state.
The claim is wrong that the cursor still advances: the reader short-
circuits to its sentinel before `#check` can move the offset. -/
theorem C8_truncated_skip_amended :
    ∀ p : Packet, p.r.truncated = true →
      (∀ op : POp, (papply p op).2 = p) ∧
      (∀ (rop : ROp) (name : String) (tmp : Bool)
        (conv : Option (Value → String → Bool → Value)),
        papply p (.read rop name tmp conv) = (.ok p, p)) ∧
      (∀ (name : String) (tmp : Bool) (conv : Option (Value → String → Bool → Value)),
        papply p (.unused name tmp conv) = (.ok p, p)) ∧
      (∀ (name : String) (v : Value) (tmp : Bool)
        (conv : Option (Value → String → Bool → Value)),
        papply p (.constant name v tmp conv) = (.ok p, p)) ∧
      (∀ (name : String) (num : Nat)
        (fn : Nat → DataViewReader → Except JSError Value × DataViewReader)
        (tmp : Bool) (conv : Option (Value → String → Bool → Value)),
        papply p (.times name num fn tmp conv) = (.ok p, p)) ∧
      (∀ (name : String) (fuel : Nat) (kg : Nat → DataViewReader → Bool)
        (rd : Nat → DataViewReader → Except JSError Value × DataViewReader)
        (tmp : Bool) (conv : Option (Value → String → Bool → Value)),
        papply p (.whileOp name fuel kg rd tmp conv) = (.ok p, p)) ∧
      (∀ d : BitsDesc,
        papply p (.bits d) = (.ok p, p) ∨ papply p (.bits d) = (.error .typeMix, p)) := by
  intro p h
  have hread : ∀ (rop : ROp) (name : String) (tmp : Bool)
      (conv : Option (Value → String → Bool → Value)),
      papply p (.read rop name tmp conv) = (.ok p, p) := by
    intro rop name tmp conv
    simp only [papply]
    rw [runROp_truncd p.r rop h]
    dsimp only
    rw [store_of_truncd _ _ _ _ _ h]
  have hunused : ∀ (name : String) (tmp : Bool)
      (conv : Option (Value → String → Bool → Value)),
      papply p (.unused name tmp conv) = (.ok p, p) := by
    intro name tmp conv
    simp only [papply]
    rw [store_of_truncd _ _ _ _ _ h]
  have hconst : ∀ (name : String) (v : Value) (tmp : Bool)
      (conv : Option (Value → String → Bool → Value)),
      papply p (.constant name v tmp conv) = (.ok p, p) := by
    intro name v tmp conv
    simp only [papply]
    rw [store_of_truncd _ _ _ _ _ h]
  have htimes : ∀ (name : String) (num : Nat)
      (fn : Nat → DataViewReader → Except JSError Value × DataViewReader)
      (tmp : Bool) (conv : Option (Value → String → Bool → Value)),
      papply p (.times name num fn tmp conv) = (.ok p, p) := by
    intro name num fn tmp conv
    simp only [papply]
    rw [times_of_truncd p.r num fn h]
    dsimp only
    rw [store_of_truncd _ _ _ _ _ h]
  have hwhile : ∀ (name : String) (fuel : Nat) (kg : Nat → DataViewReader → Bool)
      (rd : Nat → DataViewReader → Except JSError Value × DataViewReader)
      (tmp : Bool) (conv : Option (Value → String → Bool → Value)),
      papply p (.whileOp name fuel kg rd tmp conv) = (.ok p, p) := by
    intro name fuel kg rd tmp conv
    simp only [papply]
    rw [pwhile_of_truncd kg rd 0 fuel p.r h]
    dsimp only
    rw [store_of_truncd _ _ _ _ _ h]
  have hbits : ∀ d : BitsDesc,
      papply p (.bits d) = (.ok p, p) ∨ papply p (.bits d) = (.error .typeMix, p) := by
    intro d
    rcases bits_of_truncd p d h with hb | hb
    · left
      simp only [papply]
      rw [hb]
    · right
      simp only [papply]
      rw [hb]
  refine ⟨?_, hread, hunused, hconst, htimes, hwhile, hbits⟩
  intro op
  cases op with
  | read rop name tmp conv => rw [hread rop name tmp conv]
  | unused name tmp conv => rw [hunused name tmp conv]
  | constant name v tmp conv => rw [hconst name v tmp conv]
  | times name num fn tmp conv => rw [htimes name num fn tmp conv]
  | whileOp name fuel kg rd tmp conv => rw [hwhile name fuel kg rd tmp conv]
  | bits d =>
    rcases hbits d with hb | hb
    · rw [hb]
    · rw [hb]

theorem C8_truncated_skip_amended_witness :
    papply ⟨⟨[1, 2], false, false, true, 0, true⟩, [], []⟩ (.read .u8 "x" false none)
      = (.ok ⟨⟨[1, 2], false, false, true, 0, true⟩, [], []⟩,
         ⟨⟨[1, 2], false, false, true, 0, true⟩, [], []⟩) :=
  (C8_truncated_skip_amended ⟨⟨[1, 2], false, false, true, 0, true⟩, [], []⟩ rfl).2.1
    ROp.u8 "x" false none

/-- Counterexample to C8 as stated: with a truncated tolerant reader over
two bytes at offset 0, the Packet `u8` store leaves both records empty —
and the cursor stays at 0 instead of advancing by the one byte of the
claimed read: nothing advances. -/
theorem C8_truncated_skip_counterexample :
    ((papply ⟨⟨[1, 2], false, false, true, 0, true⟩, [], []⟩
        (.read .u8 "x" false none)).2.r.offset = 0 ∧
     (papply ⟨⟨[1, 2], false, false, true, 0, true⟩, [], []⟩
        (.read .u8 "x" false none)).2.packet = [] ∧
     (papply ⟨⟨[1, 2], false, false, true, 0, true⟩, [], []⟩
        (.read .u8 "x" false none)).2.temp = []) ∧
    (0 : Nat) ≠ 0 + ROp.u8.width :=
  ⟨⟨rfl, rfl, rfl⟩, by simp [ROp.width]⟩

end DVS
